import Mathlib

/-!
Verification development for the html2rss tool (src/tools/html2rss/src/main.rs).

The Rust source is shallowly embedded: strings are modelled as `List Char`
(`Str`), bytes as `Nat` below 256, parsed URLs as a `Url` structure, parsed
HTML documents as a `Doc` structure whose fields abstract exactly the DOM
queries the source performs (CSS selections become lists, the network fetch
becomes an oracle function).  External crates used by the source
(url, form_urlencoded, encoding_rs, unicode-normalization, html-escape) have
no source in this repository; they are modelled from their documented
behaviour, each with a doc comment stating the modelling choices.
All definitions are executable so that concrete counterexamples evaluate.
-/

set_option maxRecDepth 10000

/-- Strings of the embedded program: lists of Unicode scalar values. -/
abbrev Str := List Char

/-- Convert a Lean string literal to the model representation. -/
def str (s : String) : Str := s.data

/-- ASCII lowercasing of a single character.  Models Rust
`char::to_lowercase` / `str::to_lowercase` restricted to ASCII; non-ASCII
case mappings are not exercised by the strings in this development and are
modelled as the identity. -/
def lowerChar (c : Char) : Char :=
  if 65 ≤ c.toNat ∧ c.toNat ≤ 90 then Char.ofNat (c.toNat + 32) else c

/-- Lowercase a whole string (models `str::to_lowercase`). -/
def lowerStr (l : Str) : Str := l.map lowerChar

/-- Unicode White_Space characters: the set matched by Rust
`char::is_whitespace` and by the `\s` class of the regex crate. -/
def isWsChar (c : Char) : Bool :=
  c = ' ' ∨ c = '\t' ∨ c = '\n' ∨ c.toNat = 0x0B ∨ c.toNat = 0x0C ∨ c = '\r' ∨
  c.toNat = 0x85 ∨ c.toNat = 0xA0 ∨ c.toNat = 0x1680 ∨
  (0x2000 ≤ c.toNat ∧ c.toNat ≤ 0x200A) ∨
  c.toNat = 0x2028 ∨ c.toNat = 0x2029 ∨ c.toNat = 0x202F ∨
  c.toNat = 0x205F ∨ c.toNat = 0x3000

/-- Models Rust `str::trim`: drop leading and trailing whitespace. -/
def trimStr (l : Str) : Str :=
  ((l.dropWhile isWsChar).reverse.dropWhile isWsChar).reverse

/-- Worker for `collapseWs`; the flag records whether the previous character
was whitespace (in which case further whitespace is dropped). -/
def collapseWsAux : Bool → Str → Str
  | _, [] => []
  | prevWs, c :: rest =>
    if isWsChar c then
      if prevWs then collapseWsAux true rest
      else ' ' :: collapseWsAux true rest
    else c :: collapseWsAux false rest

/-- Models `RE_WHITESPACE.replace_all(s, " ")` from the source: every maximal
run of whitespace is replaced by a single space. -/
def collapseWs (l : Str) : Str := collapseWsAux false l

/-- Decide whether `needle` is a prefix of `hay`. -/
def leadsWith : Str → Str → Bool
  | [], _ => true
  | _ :: _, [] => false
  | p :: ps, c :: cs => p = c && leadsWith ps cs

/-- Decide whether `needle` occurs as a contiguous substring of `hay`.
Models Rust `str::contains` with a literal pattern. -/
def hasSub (needle : Str) : Str → Bool
  | [] => leadsWith needle []
  | c :: rest => leadsWith needle (c :: rest) || hasSub needle rest

/-- Decide whether `suffix` is a suffix of `hay` (models `str::ends_with`). -/
def endsWith (suffix hay : Str) : Bool := leadsWith suffix.reverse hay.reverse

/-- Split a list at the first occurrence of `sep`: returns the part before it
and, when `sep` occurs, the part after it. -/
def splitFirst (sep : Char) : Str → Str × Option Str
  | [] => ([], none)
  | c :: rest =>
    if c = sep then ([], some rest)
    else
      let r := splitFirst sep rest
      (c :: r.1, r.2)

/-- Split a list on every occurrence of `sep` (models `str::split`). -/
def splitAll (sep : Char) : Str → List Str
  | [] => [[]]
  | c :: rest =>
    let r := splitAll sep rest
    if c = sep then [] :: r
    else
      match r with
      | [] => [[c]]
      | piece :: more => (c :: piece) :: more

/-- Interleave `sep` between the given pieces (inverse of `splitAll` for
separator-free pieces). -/
def joinWith (sep : Char) : List Str → Str
  | [] => []
  | [p] => p
  | p :: rest => p ++ sep :: joinWith sep rest

/-- UTF-8 encoding of one Unicode scalar value as a list of byte values.
Models how Rust strings are laid out in memory (`str::as_bytes`,
`char::to_string().as_bytes()`). -/
def utf8Encode (c : Char) : List Nat :=
  let n := c.toNat
  if n < 0x80 then [n]
  else if n < 0x800 then [0xC0 + n / 64, 0x80 + n % 64]
  else if n < 0x10000 then
    [0xE0 + n / 4096, 0x80 + (n / 64) % 64, 0x80 + n % 64]
  else
    [0xF0 + n / 262144, 0x80 + (n / 4096) % 64, 0x80 + (n / 64) % 64, 0x80 + n % 64]

/-- UTF-8 bytes of a whole string. -/
def strBytes (l : Str) : List Nat := l.flatMap utf8Encode

/-- Byte length of a string: models Rust `str::len`. -/
def byteLen (l : Str) : Nat := (strBytes l).length

/-- A UTF-8 continuation byte. -/
def isCont (b : Nat) : Bool := 0x80 ≤ b ∧ b < 0xC0

/-- Strict UTF-8 decoding: models `String::from_utf8`.  Rejects overlong
encodings, surrogates, out-of-range values and truncated sequences, exactly
as Rust's validator does. -/
def utf8Decode : List Nat → Option Str
  | [] => some []
  | b0 :: bs =>
    if b0 < 0x80 then
      (utf8Decode bs).map (fun cs => Char.ofNat b0 :: cs)
    else if b0 < 0xC2 then none
    else if b0 < 0xE0 then
      match bs with
      | b1 :: bs1 =>
        if isCont b1 then
          (utf8Decode bs1).map (fun cs => Char.ofNat ((b0 - 0xC0) * 64 + (b1 - 0x80)) :: cs)
        else none
      | _ => none
    else if b0 < 0xF0 then
      match bs with
      | b1 :: b2 :: bs2 =>
        if (if b0 = 0xE0 then 0xA0 ≤ b1 ∧ b1 < 0xC0
            else if b0 = 0xED then 0x80 ≤ b1 ∧ b1 < 0xA0
            else isCont b1 = true) ∧ isCont b2 = true then
          (utf8Decode bs2).map
            (fun cs => Char.ofNat ((b0 - 0xE0) * 4096 + (b1 - 0x80) * 64 + (b2 - 0x80)) :: cs)
        else none
      | _ => none
    else if b0 < 0xF5 then
      match bs with
      | b1 :: b2 :: b3 :: bs3 =>
        if (if b0 = 0xF0 then 0x90 ≤ b1 ∧ b1 < 0xC0
            else if b0 = 0xF4 then 0x80 ≤ b1 ∧ b1 < 0x90
            else isCont b1 = true) ∧ isCont b2 = true ∧ isCont b3 = true then
          (utf8Decode bs3).map
            (fun cs => Char.ofNat ((b0 - 0xF0) * 262144 + (b1 - 0x80) * 4096 +
              (b2 - 0x80) * 64 + (b3 - 0x80)) :: cs)
        else none
      | _ => none
    else none

/-- Lossy UTF-8 decoding: models `String::from_utf8_lossy`.  Valid sequences
decode as in `utf8Decode`; on an invalid byte one replacement character
U+FFFD is emitted and one byte is skipped (an abstraction of the
maximal-subpart substitution rule that agrees with it on valid input, which
is the only case the proofs below rely on). -/
def utf8DecodeLossyF : Nat → List Nat → Str
  | 0, _ => []
  | _ + 1, [] => []
  | fuel + 1, b0 :: bs =>
    if b0 < 0x80 then Char.ofNat b0 :: utf8DecodeLossyF fuel bs
    else if b0 < 0xC2 then '�' :: utf8DecodeLossyF fuel bs
    else if b0 < 0xE0 then
      match bs with
      | b1 :: bs1 =>
        if isCont b1 then
          Char.ofNat ((b0 - 0xC0) * 64 + (b1 - 0x80)) :: utf8DecodeLossyF fuel bs1
        else '�' :: utf8DecodeLossyF fuel (b1 :: bs1)
      | _ => ['�']
    else if b0 < 0xF0 then
      match bs with
      | b1 :: b2 :: bs2 =>
        if (if b0 = 0xE0 then 0xA0 ≤ b1 ∧ b1 < 0xC0
            else if b0 = 0xED then 0x80 ≤ b1 ∧ b1 < 0xA0
            else isCont b1 = true) ∧ isCont b2 = true then
          Char.ofNat ((b0 - 0xE0) * 4096 + (b1 - 0x80) * 64 + (b2 - 0x80)) ::
            utf8DecodeLossyF fuel bs2
        else '�' :: utf8DecodeLossyF fuel (b1 :: b2 :: bs2)
      | [_] => ['�', '�']
      | [] => ['�']
    else if b0 < 0xF5 then
      match bs with
      | b1 :: b2 :: b3 :: bs3 =>
        if (if b0 = 0xF0 then 0x90 ≤ b1 ∧ b1 < 0xC0
            else if b0 = 0xF4 then 0x80 ≤ b1 ∧ b1 < 0x90
            else isCont b1 = true) ∧ isCont b2 = true ∧ isCont b3 = true then
          Char.ofNat ((b0 - 0xF0) * 262144 + (b1 - 0x80) * 4096 +
            (b2 - 0x80) * 64 + (b3 - 0x80)) :: utf8DecodeLossyF fuel bs3
        else '�' :: utf8DecodeLossyF fuel (b1 :: b2 :: b3 :: bs3)
      | [_, _] => ['�', '�', '�']
      | [_] => ['�', '�']
      | [] => ['�']
    else '�' :: utf8DecodeLossyF fuel bs

/-- Lossy UTF-8 decoding with the fuel instantiated to the input length
(one byte is consumed per step, so the fuel never runs out). -/
def utf8DecodeLossy (bs : List Nat) : Str := utf8DecodeLossyF bs.length bs

/-- Decode one byte under Windows-1252, following the WHATWG encoding
standard table used by the encoding_rs crate: bytes 0x80–0x9F map to the
listed code points (undefined slots pass through as C1 controls), all other
bytes map to the identical code point. -/
def win1252Byte (b : Nat) : Char :=
  if b = 0x80 then Char.ofNat 0x20AC
  else if b = 0x82 then Char.ofNat 0x201A
  else if b = 0x83 then Char.ofNat 0x0192
  else if b = 0x84 then Char.ofNat 0x201E
  else if b = 0x85 then Char.ofNat 0x2026
  else if b = 0x86 then Char.ofNat 0x2020
  else if b = 0x87 then Char.ofNat 0x2021
  else if b = 0x88 then Char.ofNat 0x02C6
  else if b = 0x89 then Char.ofNat 0x2030
  else if b = 0x8A then Char.ofNat 0x0160
  else if b = 0x8B then Char.ofNat 0x2039
  else if b = 0x8C then Char.ofNat 0x0152
  else if b = 0x8E then Char.ofNat 0x017D
  else if b = 0x91 then Char.ofNat 0x2018
  else if b = 0x92 then Char.ofNat 0x2019
  else if b = 0x93 then Char.ofNat 0x201C
  else if b = 0x94 then Char.ofNat 0x201D
  else if b = 0x95 then Char.ofNat 0x2022
  else if b = 0x96 then Char.ofNat 0x2013
  else if b = 0x97 then Char.ofNat 0x2014
  else if b = 0x98 then Char.ofNat 0x02DC
  else if b = 0x99 then Char.ofNat 0x2122
  else if b = 0x9A then Char.ofNat 0x0161
  else if b = 0x9B then Char.ofNat 0x203A
  else if b = 0x9C then Char.ofNat 0x0153
  else if b = 0x9E then Char.ofNat 0x017E
  else if b = 0x9F then Char.ofNat 0x0178
  else Char.ofNat b

/-- Models `encoding_rs::WINDOWS_1252.decode_without_bom_handling`: a
byte-wise total decode. -/
def win1252Decode (bs : List Nat) : Str := bs.map win1252Byte

/-- ASCII alphanumeric test. -/
def isAlphaNum (c : Char) : Bool :=
  (48 ≤ c.toNat ∧ c.toNat ≤ 57) ∨ (65 ≤ c.toNat ∧ c.toNat ≤ 90) ∨
  (97 ≤ c.toNat ∧ c.toNat ≤ 122)

/-- Characters the application/x-www-form-urlencoded serializer passes
through unchanged (the `form_urlencoded` crate: alphanumerics and
`*`, `-`, `.`, `_`). -/
def formSafeChar (c : Char) : Bool :=
  isAlphaNum c ∨ c = '*' ∨ c = '-' ∨ c = '.' ∨ c = '_'

/-- Uppercase hexadecimal digit for a value below 16. -/
def hexDigit (n : Nat) : Char :=
  if n < 10 then Char.ofNat (48 + n) else Char.ofNat (55 + n)

/-- Percent-escape of one byte: the three characters `%XY`. -/
def pctByte (b : Nat) : Str := ['%', hexDigit (b / 16), hexDigit (b % 16)]

/-- Models the byte serializer of the `form_urlencoded` crate
(`Serializer::append_pair` on each key and value): safe characters pass
through, space becomes `+`, every other character is percent-escaped
byte-by-byte in UTF-8. -/
def formEncodeStr (l : Str) : Str :=
  l.flatMap fun c =>
    if c = ' ' then ['+']
    else if formSafeChar c then [c]
    else (utf8Encode c).flatMap pctByte

/-- Hexadecimal digit test on a byte value (both cases). -/
def isHexByte (b : Nat) : Bool :=
  (48 ≤ b ∧ b ≤ 57) ∨ (65 ≤ b ∧ b ≤ 70) ∨ (97 ≤ b ∧ b ≤ 102)

/-- Value of a hexadecimal digit byte. -/
def hexVal (b : Nat) : Nat :=
  if b ≤ 57 then b - 48 else if b ≤ 70 then b - 55 else b - 87

/-- Whether a byte list starts with two hexadecimal digits. -/
def pdTwoHex : List Nat → Bool
  | h1 :: h2 :: _ => isHexByte h1 && isHexByte h2
  | _ => false

/-- Models `percent_encoding::percent_decode`: every `%` followed by two hex
digits becomes the denoted byte; anything else passes through. -/
def percentDecode : List Nat → List Nat
  | [] => []
  | b :: rest =>
    if b = 37 ∧ pdTwoHex rest = true then
      match rest with
      | h1 :: h2 :: rest2 => (hexVal h1 * 16 + hexVal h2) :: percentDecode rest2
      | _ => []
    else b :: percentDecode rest

/-- Byte-level plus-to-space replacement performed by the form decoder. -/
def plusFix (b : Nat) : Nat := if b = 43 then 32 else b

/-- Models the decode step of `form_urlencoded::parse` on one key or value:
replace `+` by space, percent-decode, then decode the bytes as UTF-8
lossily. -/
def formDecodeStr (l : Str) : Str :=
  utf8DecodeLossy (percentDecode ((strBytes l).map plusFix))

/-- Split one `key=value` piece (the part after the first `=` is the value;
a piece without `=` is a key with empty value). -/
def formPair (piece : Str) : Str × Str :=
  match splitFirst '=' piece with
  | (k, some v) => (formDecodeStr k, formDecodeStr v)
  | (k, none) => (formDecodeStr k, [])

/-- Models `form_urlencoded::parse(...).into_owned()`: split the query on
`&`, skip empty pieces, decode each piece into a key/value pair. -/
def formParse (q : Str) : List (Str × Str) :=
  ((splitAll '&' q).filter (fun p => ¬p = [])).map formPair

/-- Models `form_urlencoded::Serializer` building a query from pairs with
`append_pair`. -/
def formSerialize (ps : List (Str × Str)) : Str :=
  joinWith '&' (ps.map fun kv => formEncodeStr kv.1 ++ '=' :: formEncodeStr kv.2)

/-- Parsed URL value.  Models `url::Url` restricted to hierarchical URLs
(`scheme://authority/path?query#fragment`): the authority is kept as one
opaque host string (`Url::domain()` is modelled by `host`), the path always
starts with `/`, and query and fragment are stored without their leading
`?` and `#`.  Percent-encoding normalization, IDNA, port handling and
non-hierarchical schemes of the url crate are outside the model; strings
the model cannot parse are treated like strings the crate fails on. -/
structure Url where
  scheme : Str
  host : Str
  path : Str
  query : Option Str
  fragment : Option Str
deriving DecidableEq, Repr

/-- ASCII alphabetic test. -/
def isAlpha (c : Char) : Bool :=
  (65 ≤ c.toNat ∧ c.toNat ≤ 90) ∨ (97 ≤ c.toNat ∧ c.toNat ≤ 122)

/-- Characters allowed in a URL scheme after the first. -/
def schemeChar (c : Char) : Bool :=
  isAlpha c ∨ (48 ≤ c.toNat ∧ c.toNat ≤ 57) ∨ c = '+' ∨ c = '-' ∨ c = '.'

/-- Parse the scheme-and-authority core (everything before query and
fragment) of a hierarchical URL. -/
def parseCore (core : Str) : Option (Str × Str × Str) :=
  match splitFirst ':' core with
  | (sch, some rest) =>
    match sch with
    | [] => none
    | c0 :: _ =>
      if isAlpha c0 ∧ sch.all schemeChar then
        match rest with
        | r0 :: r1 :: hostPath =>
          if r0 = '/' ∧ r1 = '/' then
            let hp := splitFirst '/' hostPath
            let host := hp.1
            let path := match hp.2 with
              | some p => '/' :: p
              | none => ['/']
            if host = [] then none
            else some (lowerStr sch, lowerStr host, path)
          else none
        | _ => none
      else none
  | (_, none) => none

/-- Models `url::Url::parse` on hierarchical URLs (see `Url`): split off the
fragment at the first `#`, the query at the first `?` before it, then
require `scheme://host` with a nonempty host; scheme and host are
lowercased, a missing path becomes `/`. -/
def parseUrl (s : Str) : Option Url :=
  let f := splitFirst '#' s
  let q := splitFirst '?' f.1
  match parseCore q.1 with
  | some shp => some ⟨shp.1, shp.2.1, shp.2.2, q.2, f.2⟩
  | none => none

/-- Models `url::Url` serialization (`Url::as_str` / `Into<String>`). -/
def serializeUrl (u : Url) : Str :=
  u.scheme ++ ':' :: '/' :: '/' :: u.host ++ u.path ++
  (match u.query with
   | some q => '?' :: q
   | none => []) ++
  (match u.fragment with
   | some f => '#' :: f
   | none => [])

/-- Tracking keys dropped by canonicalization (main.rs lines 880-883):
keys starting with `utm_` or equal to `fbclid`/`gclid`, compared after
lowercasing. -/
def isTrackingKey (k : Str) : Bool :=
  let kl := lowerStr k
  leadsWith (str "utm_") kl ∨ kl = str "fbclid" ∨ kl = str "gclid"

/-- The fragment-and-tracking-parameter stripping performed by
`canonicalize_url_str` (main.rs lines 874-894) on an already parsed URL:
drop the fragment, re-parse the query, drop tracking pairs, and rebuild the
query (or remove it when no pair survives). -/
def stripUrl (u : Url) : Url :=
  let u1 : Url := ⟨u.scheme, u.host, u.path, u.query, none⟩
  match u1.query with
  | none => u1
  | some q =>
    let pairs := (formParse q).filter fun kv => ¬isTrackingKey kv.1
    if pairs = [] then ⟨u.scheme, u.host, u.path, none, none⟩
    else ⟨u.scheme, u.host, u.path, some (formSerialize pairs), none⟩

/-- Models `canonicalize_url_str` (main.rs lines 874-897): parse, strip
fragment and tracking parameters, re-serialize; on parse failure return the
input unchanged. -/
def canonicalize_url_str (s : Str) : Str :=
  match parseUrl s with
  | some u => serializeUrl (stripUrl u)
  | none => s

/-- Decimal digit test. -/
def isDigit (c : Char) : Bool := 48 ≤ c.toNat ∧ c.toNat ≤ 57

/-- Consume exactly `n` decimal digits, returning the remainder. -/
def takeDigits : Nat → Str → Option Str
  | 0, l => some l
  | n + 1, c :: rest => if isDigit c then takeDigits n rest else none
  | _ + 1, [] => none

/-- Match `\d{1,2}/` at the front (one or two digits then a slash) and
return the remainder.  The greedy alternatives never overlap on an
input: after one leading digit the next character is either a slash
(one-digit match), a digit (two-digit match or failure) or anything else
(failure), so the match is deterministic. -/
def oneTwoDigitsSlash (l : Str) : Option Str :=
  match l with
  | d1 :: '/' :: rest2 => if isDigit d1 then some rest2 else none
  | d1 :: d2 :: '/' :: rest2 =>
    if isDigit d1 ∧ isDigit d2 then some rest2 else none
  | _ => none

/-- Match `RE_DATE` (`/\d{4}/\d{1,2}/\d{1,2}/`, main.rs line 613) anchored
at the front of the list: a slash, four digits, a slash, then two
one-or-two-digit groups each followed by a slash. -/
def dateAt (l : Str) : Bool :=
  match l with
  | '/' :: rest =>
    match takeDigits 4 rest with
    | some ('/' :: rest2) =>
      match oneTwoDigitsSlash rest2 with
      | some rest3 => (oneTwoDigitsSlash rest3).isSome
      | none => false
    | _ => false
  | _ => false

/-- Search `RE_DATE` anywhere in the string (`Regex::is_match`). -/
def reDateMatch : Str → Bool
  | [] => false
  | c :: rest => dateAt (c :: rest) || reDateMatch rest

/-- Match an ISO date segment `/\d{4}-\d{2}-\d{2}` anchored at the front. -/
def isoDateAt (l : Str) : Bool :=
  match l with
  | '/' :: rest =>
    match takeDigits 4 rest with
    | some ('-' :: rest2) =>
      match takeDigits 2 rest2 with
      | some ('-' :: rest3) =>
        match takeDigits 2 rest3 with
        | some _ => true
        | none => false
      | _ => false
    | _ => false
  | _ => false

/-- Search the ISO date alternative anywhere in the string. -/
def isoDateMatch : Str → Bool
  | [] => false
  | c :: rest => isoDateAt (c :: rest) || isoDateMatch rest

/-- Models `RE_ARTICLE.is_match` (main.rs line 614): the case-insensitive
alternation of `/article/`, `/articles/`, `/story/`, `/stories/` and an ISO
date segment.  Case-insensitivity of the ASCII literals is realized by
lowercasing the haystack. -/
def reArticleMatch (l : Str) : Bool :=
  let ll := lowerStr l
  hasSub (str "/article/") ll ∨ hasSub (str "/articles/") ll ∨
  hasSub (str "/story/") ll ∨ hasSub (str "/stories/") ll ∨ isoDateMatch ll

/-- Models the local article regex of `is_listing_page` (main.rs line 851),
which adds the `/entry/` literal to the `RE_ARTICLE` alternation. -/
def reArticleLocalMatch (l : Str) : Bool :=
  let ll := lowerStr l
  hasSub (str "/article/") ll ∨ hasSub (str "/articles/") ll ∨
  hasSub (str "/story/") ll ∨ hasSub (str "/stories/") ll ∨
  hasSub (str "/entry/") ll ∨ isoDateMatch ll

/-- The path-only part of `is_listing_page` (everything after the domain
comparison, main.rs lines 837-856). -/
def listingPath (path : Str) : Bool :=
  if path = str "/" ∨ path = [] then true
  else
    let lower := lowerStr path
    if hasSub (str "/news") lower ∨ hasSub (str "/section/") lower ∨
       hasSub (str "/category/") lower ∨ hasSub (str "/topic/") lower ∨
       hasSub (str "/topics/") lower ∨ hasSub (str "/tag/") lower ∨
       hasSub (str "/tags/") lower then true
    else
      let segs := (splitAll '/' path).filter fun s => ¬s = []
      if segs.length ≤ 2 then
        if ¬reDateMatch path ∧ ¬reArticleLocalMatch path then true else false
      else false

/-- Models `is_listing_page` (main.rs lines 834-857): same-domain URLs are
classified by `listingPath`; differing domains are never listings. -/
def is_listing_page (u base : Url) : Bool :=
  if ¬u.host = base.host then false else listingPath u.path

/-- The query keywords of `is_blacklisted_url` (main.rs lines 862-863). -/
def blacklistQueryKeywords : List Str :=
  [str "newsletter", str "subscribe", str "signup"]

/-- The path keyword array `bad` of `is_blacklisted_url` (main.rs line 866),
kept verbatim, duplicate entry included. -/
def blacklistPathKeywords : List Str :=
  [str "newsletter", str "subscribe", str "signup", str "quizzes",
   str "quiz", str "jobs", str "careers", str "advert", str "ads",
   str "promo", str "subscribe", str "privacy", str "terms", str "/about",
   str "login", str "signin", str "/stories/new", str "/store",
   str "/subscriptions", str "/donate"]

/-- Models `is_blacklisted_url` (main.rs lines 859-871): the query is
checked for three keywords, the path for the literal keyword array of the
source. -/
def is_blacklisted_url (u : Url) : Bool :=
  let queryHit : Bool :=
    match u.query with
    | some q =>
      let ql := lowerStr q
      blacklistQueryKeywords.any fun b => hasSub b ql
    | none => false
  if queryHit then true
  else
    let path := lowerStr u.path
    blacklistPathKeywords.any fun b => hasSub b path

/-- Directory part of a path: everything up to and including the last `/`. -/
def dirOfPath (p : Str) : Str :=
  (p.reverse.dropWhile fun c => ¬c = '/').reverse

/-- Models `url::Url::join` (RFC 3986 relative-reference resolution),
restricted to the reference forms the model distinguishes: absolute URLs,
scheme-relative (`//...`), absolute-path, query-only, fragment-only and
relative-path references.  Dot-segment removal and percent-encoding
normalization of the crate are omitted (no claim below depends on them). -/
def joinUrl (base : Url) (s : Str) : Option Url :=
  match parseUrl s with
  | some u => some u
  | none =>
    match s with
    | [] => some ⟨base.scheme, base.host, base.path, base.query, none⟩
    | '#' :: f => some ⟨base.scheme, base.host, base.path, base.query, some f⟩
    | '?' :: r =>
      let fh := splitFirst '#' r
      some ⟨base.scheme, base.host, base.path, some fh.1, fh.2⟩
    | '/' :: '/' :: r => parseUrl (base.scheme ++ ':' :: '/' :: '/' :: r)
    | '/' :: r =>
      let fh := splitFirst '#' ('/' :: r)
      let pq := splitFirst '?' fh.1
      some ⟨base.scheme, base.host, pq.1, pq.2, fh.2⟩
    | other =>
      let fh := splitFirst '#' other
      let pq := splitFirst '?' fh.1
      some ⟨base.scheme, base.host, dirOfPath base.path ++ pq.1, pq.2, fh.2⟩

/-- Models `extract_inner_query_url` (main.rs lines 373-382): the value of
the first query pair whose key is `url` or `u`. -/
def extract_inner_query_url (u : Url) : Option Str :=
  match u.query with
  | none => none
  | some q =>
    ((formParse q).find? fun kv => kv.1 = str "url" ∨ kv.1 = str "u").map
      fun kv => kv.2

/-- Models the last-resort branch of `normalize_maybe_url` (main.rs lines
362-367): find `url=` in the raw string and return the value of the first
form pair parsed from the remainder. -/
def rawUrlParamSearch : Str → Option Str
  | [] => none
  | c :: rest =>
    if leadsWith (str "url=") (c :: rest) then
      match formParse (rest.drop 3) with
      | kv :: _ => some kv.2
      | [] => none
    else rawUrlParamSearch rest

/-- Models `normalize_maybe_url` (main.rs lines 340-370): trim, try an
absolute parse, then a join against the base; on success prefer an inner
`url=`/`u=` query parameter; as a last resort scan the raw string for
`url=`. -/
def normalize_maybe_url (base : Url) (s0 : Str) : Option Str :=
  let s := trimStr s0
  if s = [] then none
  else
    match parseUrl s with
    | some u =>
      match extract_inner_query_url u with
      | some inner => some inner
      | none => some (serializeUrl u)
    | none =>
      match joinUrl base s with
      | some u =>
        match extract_inner_query_url u with
        | some inner => some inner
        | none => some (serializeUrl u)
      | none => rawUrlParamSearch s

/-- Match the tail of `RE_HUFF_ENTRY` (`[^/]+_[0-9]+$`) against a remainder
that runs to the end of the string: the remainder must be slash-free and of
the shape `x_d` with `x` nonempty and `d` a nonempty digit run; the regex
finds such a split exactly when the maximal digit suffix is nonempty, is
preceded by `_`, and the part before that underscore is nonempty. -/
def huffTail (r : Str) : Bool :=
  if r.any fun c => c = '/' then false
  else
    let rev := r.reverse
    let ds := rev.takeWhile isDigit
    match rev.drop ds.length with
    | '_' :: pre => ¬ds = [] ∧ ¬pre = []
    | _ => false

/-- Models `RE_HUFF_ENTRY.is_match` (`/entry/[^/]+_[0-9]+$`, main.rs line
615): some position starts with `/entry/` whose remainder matches
`huffTail`. -/
def reHuffEntryMatch : Str → Bool
  | [] => false
  | c :: rest =>
    (leadsWith (str "/entry/") (c :: rest) && huffTail (rest.drop 6)) ||
    reHuffEntryMatch rest

/-- Models `.nfkc()` from the unicode-normalization crate as a
character-wise map: a finite table of the compatibility decompositions
relevant to this development (no-break space to space, a few fullwidth and
ligature forms); characters outside the table, including every character
appearing in the concrete inputs below, are normalization-fixed points,
which matches Unicode NFKC on them.  Pairwise canonical composition is not
modelled. -/
def nfkcChar (c : Char) : Str :=
  if c.toNat = 0xA0 then [' ']
  else if c.toNat = 0xFB01 then ['f', 'i']
  else if c.toNat = 0xFB02 then ['f', 'l']
  else if c.toNat = 0x2126 then [Char.ofNat 0x3A9]
  else if c.toNat = 0xFF21 then ['A']
  else [c]

/-- NFKC of a whole string under the table model. -/
def nfkcStr (l : Str) : Str := l.flatMap nfkcChar

/-- Replace no-break spaces by plain spaces (main.rs line 299). -/
def replaceNbsp (l : Str) : Str :=
  l.map fun c => if c.toNat = 0xA0 then ' ' else c

/-- Models the inner `collapse_and_normalize` of `fix_mojibake` (main.rs
lines 297-302): NFKC, no-break-space replacement, whitespace collapse,
trim. -/
def collapse_and_normalize (l : Str) : Str :=
  trimStr (collapseWs (replaceNbsp (nfkcStr l)))

/-- The mojibake marker test of `fix_mojibake` (main.rs lines 305, 324,
333): the string contains `Ã`, `â` or the replacement character. -/
def hasMarker (l : Str) : Bool :=
  l.contains (Char.ofNat 0xC3) || l.contains (Char.ofNat 0xE2) ||
  l.contains (Char.ofNat 0xFFFD)

/-- The byte reinterpretation of the repair loop (main.rs lines 311-319):
characters up to U+00FF become single bytes, larger characters contribute
their UTF-8 bytes. -/
def low8Bytes (l : Str) : List Nat :=
  l.flatMap fun c => if c.toNat ≤ 0xFF then [c.toNat] else utf8Encode c

/-- The bounded repair loop of `fix_mojibake` (main.rs lines 310-334), with
explicit fuel for the `for _ in 0..3` bound: reinterpret the low-8-bit
bytes, try strict UTF-8, fall back to Windows-1252; stop on a fixed point
or when no marker remains. -/
def repairLoop : Nat → Str → Str
  | 0, cur => cur
  | fuel + 1, cur =>
    let bytes := low8Bytes cur
    match utf8Decode bytes with
    | some redecoded =>
      if redecoded = cur then cur
      else if hasMarker redecoded then repairLoop fuel redecoded
      else redecoded
    | none =>
      let redecoded := win1252Decode bytes
      if redecoded = cur then cur
      else if hasMarker redecoded then repairLoop fuel redecoded
      else redecoded

/-- Models `fix_mojibake` (main.rs lines 290-337): marker-free strings are
only normalized; otherwise up to three repair passes run before
normalization. -/
def fix_mojibake (s : Str) : Str :=
  if ¬hasMarker s then collapse_and_normalize s
  else collapse_and_normalize (repairLoop 3 s)

/-- Hexadecimal digit test on a character. -/
def isHexChar (c : Char) : Bool :=
  isDigit c ∨ (65 ≤ c.toNat ∧ c.toNat ≤ 70) ∨ (97 ≤ c.toNat ∧ c.toNat ≤ 102)

/-- Character for a numeric character reference; out-of-range and surrogate
values give the replacement character, as in the HTML standard. -/
def numericRefChar (n : Nat) : Char :=
  if n = 0 ∨ (0xD800 ≤ n ∧ n < 0xE000) ∨ 0x110000 ≤ n then Char.ofNat 0xFFFD
  else Char.ofNat n

/-- Value of a hexadecimal digit run. -/
def hexOfDigits (ds : Str) : Nat := ds.foldl (fun a c => a * 16 + hexVal c.toNat) 0

/-- Value of a decimal digit run. -/
def decOfDigits (ds : Str) : Nat := ds.foldl (fun a c => a * 10 + (c.toNat - 48)) 0

/-- Decode one entity starting right after a `&`: returns the decoded
character(s) and the number of characters consumed, or `none` when no
entity is recognized. -/
def decodeEntityAfterAmp (l : Str) : Option (Str × Nat) :=
  if leadsWith (str "amp;") l then some (['&'], 4)
  else if leadsWith (str "lt;") l then some (['<'], 3)
  else if leadsWith (str "gt;") l then some (['>'], 3)
  else if leadsWith (str "quot;") l then some (['"'], 5)
  else if leadsWith (str "apos;") l then some (['\''], 5)
  else if leadsWith (str "nbsp;") l then some ([Char.ofNat 0xA0], 5)
  else
    match l with
    | '#' :: 'x' :: rest =>
      let ds := rest.takeWhile isHexChar
      if ds = [] then none
      else
        match rest.drop ds.length with
        | ';' :: _ => some ([numericRefChar (hexOfDigits ds)], 2 + ds.length + 1)
        | _ => none
    | '#' :: rest =>
      let ds := rest.takeWhile isDigit
      if ds = [] then none
      else
        match rest.drop ds.length with
        | ';' :: _ => some ([numericRefChar (decOfDigits ds)], 1 + ds.length + 1)
        | _ => none
    | _ => none

/-- Models `html_escape::decode_html_entities`, restricted to a table of
common named entities plus numeric character references; an `&` that starts
no recognized entity passes through, and decoded output is never rescanned
(decoding happens exactly once). -/
def decodeEntitiesF : Nat → Str → Str
  | 0, _ => []
  | _ + 1, [] => []
  | fuel + 1, '&' :: rest =>
    match decodeEntityAfterAmp rest with
    | some dr => dr.1 ++ decodeEntitiesF fuel (rest.drop dr.2)
    | none => '&' :: decodeEntitiesF fuel rest
  | fuel + 1, c :: rest => c :: decodeEntitiesF fuel rest

/-- Entity decoding with the fuel instantiated to the input length (each
step consumes at least one character). -/
def decode_html_entities (l : Str) : Str := decodeEntitiesF l.length l

/-- Models `sanitize_text` (main.rs lines 915-928): decode HTML entities
once, then keep tab, LF, CR and every character at or above U+0020. -/
def sanitize_text (input : Str) : Str :=
  (decode_html_entities input).filter fun c =>
    c.toNat = 0x09 ∨ c.toNat = 0x0A ∨ c.toNat = 0x0D ∨ 0x20 ≤ c.toNat

/-- The text cap of the serializer (main.rs line 619). -/
def MAX_TEXT_LEN : Nat := 4096

/-- Models Rust `String::truncate(n)`: keep the characters in the first `n`
bytes; `none` models the panic raised when `n` falls strictly inside a
multi-byte character (when `n` is at or beyond the end the string is
unchanged). -/
def rustTruncate : Str → Nat → Option Str
  | _, 0 => some []
  | [], _ + 1 => some []
  | c :: cs, n + 1 =>
    if (utf8Encode c).length ≤ n + 1 then
      (rustTruncate cs (n + 1 - (utf8Encode c).length)).map fun r => c :: r
    else none

/-- Models the text handling of `write_text_element` (main.rs lines
901-912): sanitize, then if the byte length exceeds the cap, truncate at
the cap and append the ellipsis marker.  The returned value is the
character data handed to the XML writer; `none` models a panic inside
`String::truncate`. -/
def write_text_element (text : Str) : Option Str :=
  let s := sanitize_text text
  if byteLen s > MAX_TEXT_LEN then
    (rustTruncate s MAX_TEXT_LEN).map fun t => t ++ str "… (truncated)"
  else some s

/-- A candidate feed entry (main.rs lines 109-116). -/
structure Item where
  title : Str
  link : Str
  description : Option Str
  pubDate : Option Str
  image : Option Str
deriving DecidableEq, Repr

/-- The promotional title phrases of `filter_items` (main.rs line 822). -/
def promoWords : List Str :=
  [str "subscribe", str "subscription", str "donate", str "support",
   str "newsletter", str "become a member", str "subscribe to",
   str "subscribe now"]

/-- The per-item test of `filter_items` other than deduplication, applied
to the canonicalized link (main.rs lines 811-823). -/
def filterItemKeep (base : Url) (it : Item) (canon : Str) : Bool :=
  let urlOk : Bool :=
    match parseUrl canon with
    | some u =>
      if is_blacklisted_url u || is_listing_page u base then false
      else
        let path := lowerStr u.path
        if hasSub (str "/store") path || hasSub (str "/subscribe") path ||
           hasSub (str "/subscriptions") path || hasSub (str "/donate") path then
          false
        else true
    | none => true
  if ¬urlOk then false
  else
    let titleLow := lowerStr it.title
    if promoWords.any (fun pw => hasSub pw titleLow) then false else true

/-- Worker for `filter_items`: sequential retain with the set of canonical
links already kept. -/
def filterItemsGo (base : Url) : List Item → List Str → List Item
  | [], _ => []
  | it :: rest, seen =>
    let canon := canonicalize_url_str it.link
    if filterItemKeep base it canon then
      if seen.contains canon then filterItemsGo base rest seen
      else it :: filterItemsGo base rest (canon :: seen)
    else filterItemsGo base rest seen

/-- Models `filter_items` (main.rs lines 808-829): drop blacklisted,
listing, junk-path and promotional items, then deduplicate by canonical
link, keeping the first kept occurrence. -/
def filter_items (base : Url) (items : List Item) : List Item :=
  filterItemsGo base items []

/-- JSON values as produced by `serde_json` (object key order preserved;
parsed maps are assumed duplicate-free, as serde collapses duplicates). -/
inductive Json where
  | str (s : Str)
  | num (n : Int)
  | bool (b : Bool)
  | null
  | arr (elems : List Json)
  | obj (fields : List (Str × Json))
deriving Repr

/-- Field lookup on a JSON object (`serde_json::Map::get`). -/
def jsonGet (fields : List (Str × Json)) (k : Str) : Option Json :=
  (fields.find? fun f => f.1 = k).map fun f => f.2

/-- Models `Value::as_str`. -/
def jsonAsStr : Json → Option Str
  | .str s => some s
  | _ => none

/-- An anchor element as the source reads it: resolved `href` attribute,
joined visible text, whether it contains an `img`, and whether one of its
four nearest ancestors carries an article-card class (the DOM ancestor walk
of main.rs lines 636-648 is abstracted into this field). -/
structure Anchor where
  href : Option Str
  text : Str
  hasImg : Bool
  parentIsCard : Bool
deriving DecidableEq, Repr

/-- An `article` element as the source reads it (main.rs lines 530-561):
first text node of the first `h1`/`h2`/`h3`, `href` of the first anchor,
joined text of the first paragraph. -/
structure ArticleElem where
  headingText : Option Str
  firstHref : Option Str
  firstParaText : Option Str
deriving DecidableEq, Repr

/-- A `meta` element carrying a `property` or `name` attribute: `nameAttr`
is `property` when present, else `name` (main.rs lines 569, 754), `content`
the optional content attribute. -/
structure MetaTag where
  nameAttr : Str
  content : Option Str
deriving DecidableEq, Repr

/-- A `link rel=alternate` element (main.rs lines 118-131). -/
structure AltLink where
  typeAttr : Option Str
  href : Option Str
deriving DecidableEq, Repr

/-- A parsed HTML document, abstracting exactly the DOM queries the source
performs: each field is the result of one of the CSS selections of
main.rs.  `scripts` holds the JSON-LD script bodies after `serde_json`
parsing (`none` for bodies that fail to parse); `relatedAnchors` flattens
the anchors found inside the related-content containers (main.rs lines
584-592) in document order; `bodyHasErrorPhrase` abstracts the body-text
scan of `is_error_page` (main.rs lines 221-228). -/
structure Doc where
  altLinks : List AltLink
  scripts : List (Option Json)
  metas : List MetaTag
  articles : List ArticleElem
  relatedAnchors : List Anchor
  anchors : List Anchor
  heading12Text : Option Str
  titleText : Option Str
  firstImgSrc : Option Str
  bodyHasErrorPhrase : Bool
deriving Repr

/-- A fetched page: the raw body text and its parse
(`Html::parse_document`). -/
structure Page where
  raw : Str
  doc : Doc

/-- Models `is_error_page` (main.rs lines 203-231): phrase checks on the
lowercased title and description, then the abstracted body-text scan. -/
def is_error_page (doc : Doc) (title : Str) (description : Option Str) : Bool :=
  let lt := lowerStr title
  if hasSub (str "uh-oh") lt || hasSub (str "uh oh") lt ||
     hasSub (str "error") lt || hasSub (str "404") lt ||
     hasSub (str "page not found") lt || hasSub (str "not found") lt ||
     hasSub (str "we're sorry") lt || hasSub (str "sorry") lt then true
  else if hasSub (str "login") lt || hasSub (str "log in") lt ||
     hasSub (str "sign in") lt || hasSub (str "sign-in") lt ||
     hasSub (str "sign in to") lt then true
  else
    let descHit : Bool :=
      match description with
      | some d =>
        let ld := lowerStr d
        hasSub (str "error") ld || hasSub (str "not found") ld ||
        hasSub (str "page not found") ld || hasSub (str "uh-oh") ld
      | none => false
    if descHit then true else doc.bodyHasErrorPhrase

/-- Models `find_linked_feed` (main.rs lines 118-132): the first alternate
link whose type mentions rss or atom and whose href joins against the
base. -/
def find_linked_feed (doc : Doc) (base : Url) : Option Url :=
  doc.altLinks.foldl
    (fun acc node =>
      match acc with
      | some u => some u
      | none =>
        match node.typeAttr with
        | some t =>
          if hasSub (str "rss") t || hasSub (str "atom") t then
            match node.href with
            | some h => joinUrl base h
            | none => none
          else none
        | none => none)
    none

/-- Models `is_jsonld_article_node` (main.rs lines 233-252). -/
def is_jsonld_article_node (v : Json) : Bool :=
  match v with
  | .obj fields =>
    match (jsonGet fields (str "@type")).orElse (fun _ => jsonGet fields (str "type")) with
    | some (.str s) =>
      let sl := lowerStr s
      hasSub (str "article") sl || hasSub (str "newsarticle") sl ||
      hasSub (str "report") sl
    | some (.arr elems) =>
      elems.any fun el =>
        match el with
        | .str s =>
          let sl := lowerStr s
          hasSub (str "article") sl || hasSub (str "newsarticle") sl ||
          hasSub (str "report") sl
        | _ => false
    | _ => false
  | _ => false

/-- Models `json_ld_to_item` (main.rs lines 254-287). -/
def json_ld_to_item (v : Json) (base : Url) : Option Item :=
  match v with
  | .obj fields =>
    match ((jsonGet fields (str "headline")).bind jsonAsStr).orElse
        (fun _ => (jsonGet fields (str "name")).bind jsonAsStr) with
    | none => none
    | some titleRaw =>
      let title := fix_mojibake titleRaw
      let link :=
        match ((jsonGet fields (str "url")).bind jsonAsStr).bind
            (normalize_maybe_url base) with
        | some l => l
        | none => serializeUrl base
      let description :=
        ((jsonGet fields (str "description")).bind jsonAsStr).map fix_mojibake
      let pubDate := (jsonGet fields (str "datePublished")).bind jsonAsStr
      let image :=
        match jsonGet fields (str "image") with
        | some (.str s) => normalize_maybe_url base s
        | some (.obj imgFields) =>
          ((jsonGet imgFields (str "url")).bind jsonAsStr).bind
            (normalize_maybe_url base)
        | some (.arr elems) =>
          (elems.head?.bind jsonAsStr).bind (normalize_maybe_url base)
        | _ => none
      some ⟨title, link, description, pubDate, image⟩
  | _ => none

/-- Items collected from one parsed JSON-LD block before the
`mainEntityOfPage` fallback (main.rs lines 140-177). -/
def jsonLdBlockItems (json : Json) (base : Url) : List Item :=
  let graphItems :=
    match json with
    | .obj fields =>
      match jsonGet fields (str "@graph") with
      | some (.arr arr) =>
        arr.foldl
          (fun acc v =>
            if is_jsonld_article_node v then
              match json_ld_to_item v base with
              | some it => acc ++ [it]
              | none => acc
            else acc)
          []
      | _ => []
    | _ => []
  let rootItems :=
    match json with
    | .obj _ =>
      if graphItems = [] ∧ is_jsonld_article_node json then
        match json_ld_to_item json base with
        | some it => [it]
        | none => []
      else []
    | _ => []
  let items1 := graphItems ++ rootItems
  let arrItems :=
    match json with
    | .arr arr =>
      if items1 = [] then
        arr.foldl
          (fun acc v =>
            if is_jsonld_article_node v then
              match json_ld_to_item v base with
              | some it => acc ++ [it]
              | none => acc
            else acc)
          []
      else []
    | _ => []
  items1 ++ arrItems

/-- Result of one JSON-LD block including the `mainEntityOfPage` fallback
(main.rs lines 180-195): `some` exactly when the block yields items. -/
def jsonLdBlockResult (json : Json) (base : Url) : Option (List Item) :=
  let items := jsonLdBlockItems json base
  if ¬items = [] then some items
  else
    match json with
    | .obj fields =>
      match jsonGet fields (str "mainEntityOfPage") with
      | some me =>
        if is_jsonld_article_node me then
          match json_ld_to_item me base with
          | some it => some [it]
          | none => none
        else none
      | none => none
    | _ => none

/-- Models `extract_from_json_ld` (main.rs lines 134-200): the first script
block that parses and yields at least one item. -/
def extract_from_json_ld (doc : Doc) (base : Url) : Option (List Item) :=
  doc.scripts.foldl
    (fun acc script =>
      match acc with
      | some items => some items
      | none =>
        match script with
        | some json => jsonLdBlockResult json base
        | none => none)
    none

/-- Models `looks_like_single_article` (main.rs lines 566-581). -/
def looks_like_single_article (doc : Doc) : Bool :=
  doc.metas.any fun m =>
    let nl := lowerStr m.nameAttr
    (nl = str "og:type" &&
      (match m.content with
       | some content => hasSub (str "article") (lowerStr content)
       | none => false)) ||
    nl = str "article:published_time" || nl = str "pubdate"

/-- Worker for `extract_article_elements`: the loop over the first 50
article elements (main.rs lines 530-562), threading the item accumulator. -/
def extractArticlesGo (doc : Doc) (base : Url) (maxPages : Nat) :
    List ArticleElem → List Item → List Item
  | [], items => items
  | art :: rest, items =>
    if maxPages ≤ items.length then items
    else
      match art.headingText.map (fun s => fix_mojibake (trimStr s)) with
      | none => extractArticlesGo doc base maxPages rest items
      | some title =>
        if trimStr title = [] then extractArticlesGo doc base maxPages rest items
        else
          let link :=
            match (art.firstHref.bind fun h => joinUrl base h).map serializeUrl with
            | some l => l
            | none => serializeUrl base
          let desc := art.firstParaText.map fix_mojibake
          if is_error_page doc title desc then
            extractArticlesGo doc base maxPages rest items
          else
            match parseUrl link with
            | some linkUrl =>
              if ¬is_blacklisted_url linkUrl ∧ ¬is_listing_page linkUrl base then
                extractArticlesGo doc base maxPages rest
                  (items ++ [⟨title, link, desc, none, none⟩])
              else extractArticlesGo doc base maxPages rest items
            | none =>
              extractArticlesGo doc base maxPages rest
                (items ++ [⟨title, link, desc, none, none⟩])

/-- Models `extract_article_elements` (main.rs lines 528-564): scan at most
50 article elements of the document. -/
def extract_article_elements (doc : Doc) (base : Url) (maxPages : Nat)
    (items : List Item) : List Item :=
  extractArticlesGo doc base maxPages (doc.articles.take 50) items

/-- Worker for `extract_related_articles` over the flattened related-section
anchors (main.rs lines 588-607). -/
def extractRelatedGo (doc : Doc) (base : Url) (maxPages : Nat) :
    List Anchor → List Item → List Item
  | [], items => items
  | a :: rest, items =>
    if maxPages ≤ items.length then items
    else
      match a.href with
      | none => extractRelatedGo doc base maxPages rest items
      | some href =>
        match joinUrl base href with
        | none => extractRelatedGo doc base maxPages rest items
        | some abs =>
          if abs.host = base.host then
            let s := serializeUrl abs
            if items.any fun it => it.link = s then
              extractRelatedGo doc base maxPages rest items
            else if is_blacklisted_url abs || is_listing_page abs base then
              extractRelatedGo doc base maxPages rest items
            else
              let title := fix_mojibake (trimStr a.text)
              if title = [] ∨ is_error_page doc title none then
                extractRelatedGo doc base maxPages rest items
              else
                extractRelatedGo doc base maxPages rest
                  (items ++ [⟨title, s, none, none, none⟩])
          else extractRelatedGo doc base maxPages rest items

/-- Models `extract_related_articles` (main.rs lines 583-610). -/
def extract_related_articles (doc : Doc) (base : Url) (maxPages : Nat)
    (items : List Item) : List Item :=
  extractRelatedGo doc base maxPages doc.relatedAnchors items

/-- The article-likeness score of one anchor in `build_candidate_list`
(main.rs lines 650-656), including the huffpost override. -/
def anchorIsArticleLike (base : Url) (a : Anchor) (s : Str) (linkText : Str) : Bool :=
  let base0 : Bool :=
    reDateMatch s || reArticleMatch s || 25 < byteLen linkText || a.hasImg ||
    a.parentIsCard
  if hasSub (str "huffpost") (lowerStr base.host) then
    if reHuffEntryMatch s then true
    else if endsWith (str "/news") s || endsWith (str "/news/") s ||
        endsWith (str "/all") s then false
    else base0
  else base0

/-- Worker for `build_candidate_list` (main.rs lines 626-665), threading the
seen-set and the accumulated candidates. -/
def buildCandidatesGo (base : Url) (maxPages : Nat) :
    List Anchor → List Str → List Url → List Url
  | [], _, cands => cands
  | a :: rest, seen, cands =>
    match a.href with
    | none => buildCandidatesGo base maxPages rest seen cands
    | some href =>
      match joinUrl base href with
      | none => buildCandidatesGo base maxPages rest seen cands
      | some abs =>
        if ¬abs.host = base.host then
          buildCandidatesGo base maxPages rest seen cands
        else
          let s := serializeUrl abs
          if seen.contains s then buildCandidatesGo base maxPages rest seen cands
          else
            let linkText := fix_mojibake (trimStr a.text)
            if anchorIsArticleLike base a s linkText ∧ ¬is_blacklisted_url abs then
              let cands1 := cands ++ [abs]
              if maxPages ≤ cands1.length then cands1
              else buildCandidatesGo base maxPages rest (s :: seen) cands1
            else buildCandidatesGo base maxPages rest seen cands

/-- Models `build_candidate_list` (main.rs lines 621-669): scan at most 2000
anchors of the document for article-like same-domain candidates, capped at
`maxPages`. -/
def build_candidate_list (doc : Doc) (base : Url) (maxPages : Nat) : List Url :=
  buildCandidatesGo base maxPages (doc.anchors.take 2000) [] []

/-- Models `extract_item_from_doc` (main.rs lines 729-806) on a fetched
candidate page. -/
def extract_item_from_doc (doc : Doc) (cand base : Url) (items : List Item) :
    List Item :=
  let jsonLdPush : Option Item :=
    match extract_from_json_ld doc cand with
    | some jitems =>
      match jitems.getLast? with
      | some it0 =>
        let it := if it0.link = [] then
            ⟨it0.title, serializeUrl cand, it0.description, it0.pubDate, it0.image⟩
          else it0
        if ¬is_error_page doc it.title it.description then some it else none
      | none => none
    | none => none
  match jsonLdPush with
  | some it => items ++ [it]
  | none =>
    let found := doc.metas.foldl
      (fun (st : Option Str × Option Str × Option Str × Option Str) m =>
        match m.content with
        | none => st
        | some content =>
          let nl := lowerStr m.nameAttr
          let title := if st.1 = none ∧
              (nl = str "og:title" ∨ nl = str "twitter:title" ∨ nl = str "title")
            then some (fix_mojibake content) else st.1
          let desc := if st.2.1 = none ∧
              (nl = str "og:description" ∨ nl = str "twitter:description" ∨
               nl = str "description")
            then some (fix_mojibake content) else st.2.1
          let image := if st.2.2.1 = none ∧
              (nl = str "og:image" ∨ nl = str "twitter:image" ∨ nl = str "image")
            then normalize_maybe_url cand content else st.2.2.1
          let date := if st.2.2.2 = none ∧
              (nl = str "article:published_time" ∨ nl = str "pubdate" ∨
               nl = str "date")
            then some content else st.2.2.2
          (title, desc, image, date))
      (none, none, none, none)
    let foundTitle :=
      match found.1 with
      | some t => some t
      | none =>
        match doc.heading12Text.map (fun t => fix_mojibake (trimStr t)) with
        | some t => some t
        | none => doc.titleText.map fun t => fix_mojibake (trimStr t)
    let foundImage :=
      match found.2.2.1 with
      | some i => some i
      | none => doc.firstImgSrc.bind fun src => normalize_maybe_url cand src
    match foundTitle with
    | none => items
    | some title =>
      if is_error_page doc title found.2.1 then items
      else
        let linkS := serializeUrl cand
        match parseUrl linkS with
        | some linkUrl =>
          if ¬is_blacklisted_url linkUrl ∧ ¬is_listing_page linkUrl base then
            items ++ [⟨title, linkS, found.2.1, found.2.2.2, foundImage⟩]
          else items
        | none => items ++ [⟨title, linkS, found.2.1, found.2.2.2, foundImage⟩]

/-- Worker for `extract_from_listing_page` over the anchors of a fetched
listing page (main.rs lines 708-726).  `get_text_with_headers_retry` is
modelled by the same fetch oracle: with a deterministic fetcher, retrying
returns the first result. -/
def listingPageGo (fetch : Str → Option Page) (cand base : Url) (maxPages : Nat) :
    List Anchor → List Item → List Item
  | [], items => items
  | a :: rest, items =>
    if maxPages ≤ items.length then items
    else
      match a.href with
      | none => listingPageGo fetch cand base maxPages rest items
      | some href =>
        match joinUrl cand href with
        | none => listingPageGo fetch cand base maxPages rest items
        | some abs =>
          if ¬abs.host = base.host then
            listingPageGo fetch cand base maxPages rest items
          else
            let s := serializeUrl abs
            if items.any fun it => it.link = s then
              listingPageGo fetch cand base maxPages rest items
            else
              let isArticleCandidate :=
                reDateMatch s || reArticleMatch s || a.hasImg
              if isArticleCandidate then
                match fetch s with
                | some page =>
                  listingPageGo fetch cand base maxPages rest
                    (extract_item_from_doc page.doc abs base items)
                | none => listingPageGo fetch cand base maxPages rest items
              else listingPageGo fetch cand base maxPages rest items

/-- Models `extract_from_listing_page` (main.rs lines 700-727). -/
def extract_from_listing_page (fetch : Str → Option Page) (docList : Doc)
    (cand base : Url) (maxPages : Nat) (items : List Item) : List Item :=
  listingPageGo fetch cand base maxPages docList.anchors items

/-- Models `fetch_candidates` (main.rs lines 671-698); paywall checks are
disabled in the source (`is_paywalled_url` returns false). -/
def fetch_candidates (fetch : Str → Option Page) (candidates : List Url)
    (base : Url) (maxPages : Nat) : List Item → List Item :=
  fun items =>
    candidates.foldl
      (fun items cand =>
        if maxPages ≤ items.length then items
        else if is_listing_page cand base then
          match fetch (serializeUrl cand) with
          | some page =>
            extract_from_listing_page fetch page.doc cand base maxPages items
          | none => items
        else
          match fetch (serializeUrl cand) with
          | some page => extract_item_from_doc page.doc cand base items
          | none => items)
      items

/-- Models `extract_from_html` (main.rs lines 493-524): the five stages of
the heuristic extractor.  The early return after stage 1 hands the items
back unfiltered, exactly as in the source. -/
def extract_from_html (fetch : Str → Option Page) (doc : Doc) (base : Url)
    (maxPages : Nat) : List Item :=
  let items1 := extract_article_elements doc base maxPages []
  if maxPages ≤ items1.length ∧ ¬items1 = [] then items1
  else
    let items2 :=
      if looks_like_single_article doc then
        extract_related_articles doc base maxPages items1
      else items1
    let candidates := build_candidate_list doc base maxPages
    let items4 := fetch_candidates fetch candidates base maxPages items2
    filter_items base items4

/-- The filter the structured-data path of `run` applies to JSON-LD items
(main.rs lines 85-91): drop error pages and parseable links that are
blacklisted or listings; note it performs no deduplication. -/
def jsonldRunFilter (doc : Doc) (startUrl : Url) (items : List Item) : List Item :=
  items.filter fun it =>
    if is_error_page doc it.title it.description then false
    else
      match parseUrl it.link with
      | some u => ¬is_blacklisted_url u ∧ ¬is_listing_page u startUrl
      | none => true

/-- Outcome of the pipeline part of `run`: a linked feed echoed verbatim, an
RSS document serialized from items, or the terminal no-articles error. -/
inductive RunOutcome where
  | feed (raw : Str)
  | rss (items : List Item)
  | noArticles
deriving DecidableEq, Repr

/-- Stages 2 and 3 of `run` (main.rs lines 82-106): structured data with its
filter, then the heuristic extractor. -/
def pipelineTail (fetch : Str → Option Page) (doc : Doc) (startUrl : Url)
    (maxPages : Nat) : RunOutcome :=
  let heuristic :=
    let items := extract_from_html fetch doc startUrl maxPages
    if items = [] then RunOutcome.noArticles else RunOutcome.rss items
  match extract_from_json_ld doc startUrl with
  | some items =>
    let filtered := jsonldRunFilter doc startUrl items
    if ¬filtered = [] then RunOutcome.rss filtered else heuristic
  | none => heuristic

/-- Models `run` after the start page has been fetched and parsed (main.rs
lines 71-106): feed detection with a swallowed fetch failure, then
`pipelineTail`.  The fetch oracle models `get_text_with_headers` returning
the body and its parse. -/
def run_pipeline (fetch : Str → Option Page) (doc : Doc) (startUrl : Url)
    (maxPages : Nat) : RunOutcome :=
  match find_linked_feed doc startUrl with
  | some feedUrl =>
    match fetch (serializeUrl feedUrl) with
    | some page => RunOutcome.feed page.raw
    | none => pipelineTail fetch doc startUrl maxPages
  | none => pipelineTail fetch doc startUrl maxPages

/-- Well-formedness of a `Url` value as produced by `parseUrl`: the shape
invariants on which the serialize-parse round trip rests. -/
def urlWF (u : Url) : Prop :=
  (match u.scheme with
   | [] => False
   | c0 :: _ => isAlpha c0 = true) ∧
  u.scheme.all schemeChar = true ∧
  lowerStr u.scheme = u.scheme ∧
  ¬u.host = [] ∧
  '/' ∉ u.host ∧ '?' ∉ u.host ∧ '#' ∉ u.host ∧
  lowerStr u.host = u.host ∧
  (∃ pr, u.path = '/' :: pr) ∧
  '?' ∉ u.path ∧ '#' ∉ u.path ∧
  (match u.query with
   | some q => '#' ∉ q
   | none => True)

/-! Concrete inputs used by counterexamples and witnesses below. -/

/-- A URL whose query contains the junk keyword `jobs` (claim C7). -/
def c7url : Url :=
  ⟨str "https", str "example.com", str "/2024/05/01/story",
    some (str "ref=jobs"), none⟩

/-- The base URL used by several concrete instances. -/
def exBase : Url := ⟨str "https", str "example.com", str "/", none, none⟩

/-- A wrapped link carrying both a non-URL `u` parameter and a URL-valued
`url` parameter (claim C8). -/
def c8href : Str := str "https://example.com/p?u=hello&url=https%3A%2F%2Fa.com%2F"

/-- Five-fold latin-1 misencoding of `é` (claim C4): three repair passes
are not enough, so `fix_mojibake` moves this string without reaching a
fixed point. -/
def c4bad : Str :=
  [195, 131, 194, 131, 195, 130, 194, 131, 195, 131, 194, 130, 195, 130,
   194, 169].map Char.ofNat

/-- Invariant of whitespace-collapsed strings: no two adjacent whitespace
characters (used by the idempotence proofs for claim C4). -/
def noTwoWs (l : Str) : Prop :=
  List.Chain' (fun a b => ¬(isWsChar a = true ∧ isWsChar b = true)) l

/-- Invariant of whitespace-collapsed strings: every whitespace character
is a plain space (used by the idempotence proofs for claim C4). -/
def wsIsSpace (l : Str) : Prop := ∀ x ∈ l, isWsChar x = true → x = ' '

/-- A text of 4095 ASCII characters followed by `é` (claim C1): it passes
`sanitize_text` unchanged, its UTF-8 length is 4097, and byte position 4096
falls inside the two-byte encoding of `é`, so `String::truncate(4096)`
panics. -/
def c1bad : Str := List.replicate 4095 'a' ++ [Char.ofNat 0xE9]

/-- An item whose raw link is blacklisted by its tracking query but whose
canonical link is clean (claim C3): `filter_items` checks only the
canonical link, so the item survives. -/
def c3item : Item :=
  ⟨str "Story", str "https://example.com/articles/x?utm_source=newsletter",
    none, none, none⟩

/-- An item with a clean article link (claim C3's witness). -/
def c3good : Item :=
  ⟨str "A story", str "https://example.com/articles/a", none, none, none⟩

/-- The parse of `c3good`'s canonical link. -/
def c3goodUrl : Url :=
  ⟨str "https", str "example.com", str "/articles/a", none, none⟩

/-- A JSON-LD `NewsArticle` node (claim C2). -/
def c2node : Json :=
  .obj [(str "@type", .str (str "NewsArticle")),
        (str "headline", .str (str "Story one")),
        (str "url", .str (str "https://example.com/articles/story-one"))]

/-- A document whose only script is a JSON-LD block holding the same
article node twice (claim C2): the structured-data path of `run` performs
no deduplication. -/
def c2doc : Doc :=
  ⟨[], [some (.obj [(str "@graph", .arr [c2node, c2node])])], [], [], [], [],
    none, none, none, false⟩

/-- The item `c2node` parses to (claim C2). -/
def c2item : Item :=
  ⟨str "Story one", str "https://example.com/articles/story-one",
    none, none, none⟩

/-- A second clean item with a link of its own (claim C2). -/
def c2itemB : Item :=
  ⟨str "B story", str "https://example.com/articles/b", none, none, none⟩

/-- An item sharing `c2item`'s canonical link under a different title and a
tracking parameter (claim C2): `filter_items` keeps only the first
occurrence. -/
def c2dupItem : Item :=
  ⟨str "Other title", str "https://example.com/articles/story-one?utm_source=x",
    none, none, none⟩

/-- A document advertising an RSS alternate link (claim C10). -/
def c10doc : Doc :=
  ⟨[⟨some (str "application/rss+xml"), some (str "/feed")⟩],
    [], [], [], [], [], none, none, none, false⟩

/-- The feed URL `find_linked_feed` resolves on `c10doc` (claim C10). -/
def c10feedUrl : Url :=
  ⟨str "https", str "example.com", str "/feed", none, none⟩

/-! Helper lemmas. -/

theorem char_toNat_valid (c : Char) :
    c.toNat < 0xD800 ∨ (0xE000 ≤ c.toNat ∧ c.toNat < 0x110000) := by
  have h := c.valid
  rcases h with h | h
  · left
    have he : c.toNat = c.val.toNat := rfl
    omega
  · right
    have he : c.toNat = c.val.toNat := rfl
    omega

theorem toNat_ofNat_valid (n : Nat) (h : Nat.isValidChar n) :
    (Char.ofNat n).toNat = n := by
  unfold Char.ofNat
  rw [dif_pos h]
  simp [Char.ofNatAux, Char.toNat, UInt32.toNat, BitVec.toNat_ofNatLt]

theorem toNat_ofNat_low (n : Nat) (h : n < 0xD800) : (Char.ofNat n).toNat = n :=
  toNat_ofNat_valid n (Or.inl h)

theorem char_eq_of_toNat_eq {a b : Char} (h : a.toNat = b.toNat) : a = b := by
  apply Char.ext
  exact UInt32.ext h

theorem leadsWith_iff (n h : Str) : leadsWith n h = true ↔ ∃ t, h = n ++ t := by
  induction n generalizing h with
  | nil => simp [leadsWith]
  | cons p ps ih =>
    cases h with
    | nil => simp [leadsWith]
    | cons c cs =>
      simp only [leadsWith, Bool.and_eq_true, decide_eq_true_eq, ih]
      constructor
      · rintro ⟨rfl, t, rfl⟩
        exact ⟨t, rfl⟩
      · rintro ⟨t, ht⟩
        cases ht
        exact ⟨rfl, t, rfl⟩

theorem hasSub_iff (n h : Str) : hasSub n h = true ↔ ∃ s t, h = s ++ n ++ t := by
  induction h with
  | nil =>
    simp [hasSub, leadsWith_iff]
  | cons c cs ih =>
    simp only [hasSub, Bool.or_eq_true, leadsWith_iff, ih]
    constructor
    · rintro (⟨t, ht⟩ | ⟨s, t, hst⟩)
      · exact ⟨[], t, by simpa using ht⟩
      · exact ⟨c :: s, t, by simp [hst]⟩
    · rintro ⟨s, t, hst⟩
      cases s with
      | nil => exact Or.inl ⟨t, by simpa using hst⟩
      | cons a as =>
        simp only [List.cons_append, List.cons.injEq] at hst
        exact Or.inr ⟨as, t, hst.2⟩

theorem hasSub_map {f : Char → Char} {n h : Str} (hh : hasSub n h = true) :
    hasSub (n.map f) (h.map f) = true := by
  rw [hasSub_iff] at hh ⊢
  obtain ⟨s, t, rfl⟩ := hh
  exact ⟨s.map f, t.map f, by simp⟩

theorem hasSub_trans {a b c : Str} (h1 : hasSub a b = true)
    (h2 : hasSub b c = true) : hasSub a c = true := by
  rw [hasSub_iff] at h1 h2 ⊢
  obtain ⟨s1, t1, rfl⟩ := h1
  obtain ⟨s2, t2, rfl⟩ := h2
  exact ⟨s2 ++ s1, t1 ++ t2, by simp⟩

theorem lowerChar_idem (c : Char) : lowerChar (lowerChar c) = lowerChar c := by
  unfold lowerChar
  split
  · rename_i h
    have hv : (Char.ofNat (c.toNat + 32)).toNat = c.toNat + 32 :=
      toNat_ofNat_low _ (by omega)
    rw [if_neg (by omega)]
  · rfl

theorem lowerStr_idem (l : Str) : lowerStr (lowerStr l) = lowerStr l := by
  unfold lowerStr
  rw [List.map_map]
  apply List.map_congr_left
  intro c _
  exact lowerChar_idem c

theorem lowerChar_symbol {c x : Char} (hx : x.toNat < 65 ∨ (90 < x.toNat ∧ x.toNat < 97) ∨ 122 < x.toNat)
    (h : lowerChar c = x) : c = x := by
  unfold lowerChar at h
  split at h
  · rename_i hc
    have hv : (Char.ofNat (c.toNat + 32)).toNat = c.toNat + 32 :=
      toNat_ofNat_low _ (by omega)
    have : x.toNat = c.toNat + 32 := by rw [← h, hv]
    omega
  · exact h

theorem splitFirst_not_mem {sep : Char} {l : Str} (h : sep ∉ l) :
    splitFirst sep l = (l, none) := by
  induction l with
  | nil => rfl
  | cons c rest ih =>
    simp only [List.mem_cons, not_or] at h
    simp [splitFirst, if_neg (fun hc : c = sep => h.1 hc.symm), ih h.2]

theorem splitFirst_append {sep : Char} {l1 l2 : Str} (h : sep ∉ l1) :
    splitFirst sep (l1 ++ sep :: l2) = (l1, some l2) := by
  induction l1 with
  | nil => simp [splitFirst]
  | cons c rest ih =>
    simp only [List.mem_cons, not_or] at h
    simp [splitFirst, if_neg (fun hc : c = sep => h.1 hc.symm), ih h.2]

theorem splitFirst_fst_mem {sep : Char} {l : Str} {x : Char}
    (h : x ∈ (splitFirst sep l).1) : x ∈ l := by
  induction l with
  | nil => simp [splitFirst] at h
  | cons c rest ih =>
    by_cases hc : c = sep
    · simp [splitFirst, hc] at h
    · simp only [splitFirst, if_neg hc] at h
      rcases List.mem_cons.mp h with h1 | h2
      · exact h1 ▸ List.mem_cons_self c rest
      · exact List.mem_cons_of_mem c (ih h2)

theorem splitFirst_snd_mem {sep : Char} {l r : Str} {x : Char}
    (hr : (splitFirst sep l).2 = some r) (h : x ∈ r) : x ∈ l := by
  induction l with
  | nil => simp [splitFirst] at hr
  | cons c rest ih =>
    by_cases hc : c = sep
    · simp only [splitFirst, if_pos hc, Option.some.injEq] at hr
      exact hr ▸ List.mem_cons_of_mem c h
    · simp only [splitFirst, if_neg hc] at hr
      exact List.mem_cons_of_mem c (ih hr)

theorem splitFirst_sep_not_fst {sep : Char} {l : Str} :
    sep ∉ (splitFirst sep l).1 := by
  induction l with
  | nil => simp [splitFirst]
  | cons c rest ih =>
    by_cases hc : c = sep
    · simp [splitFirst, hc]
    · simp only [splitFirst, if_neg hc]
      intro hmem
      rcases List.mem_cons.mp hmem with h1 | h2
      · exact hc h1.symm
      · exact ih h2

theorem splitAll_ne_nil (sep : Char) (l : Str) : ¬splitAll sep l = [] := by
  induction l with
  | nil => simp [splitAll]
  | cons c rest ih =>
    simp only [splitAll]
    split
    · simp
    · split
      · simp
      · simp

theorem splitAll_no_sep {sep : Char} {p : Str} (h : sep ∉ p) :
    splitAll sep p = [p] := by
  induction p with
  | nil => rfl
  | cons c rest ih =>
    simp only [List.mem_cons, not_or] at h
    simp only [splitAll, ih h.2, if_neg (fun hc : c = sep => h.1 hc.symm)]

theorem splitAll_append_sep {sep : Char} {p t : Str} (h : sep ∉ p) :
    splitAll sep (p ++ sep :: t) = p :: splitAll sep t := by
  induction p with
  | nil => simp [splitAll]
  | cons c rest ih =>
    simp only [List.mem_cons, not_or] at h
    simp only [List.cons_append, splitAll, if_neg (fun hc : c = sep => h.1 hc.symm),
      List.append_eq, ih h.2]

theorem splitAll_joinWith {sep : Char} {pieces : List Str}
    (hne : ¬pieces = []) (hfree : ∀ p ∈ pieces, sep ∉ p) :
    splitAll sep (joinWith sep pieces) = pieces := by
  induction pieces with
  | nil => exact absurd rfl hne
  | cons p rest ih =>
    cases rest with
    | nil =>
      simp only [joinWith]
      exact splitAll_no_sep (hfree p (List.mem_cons_self p []))
    | cons q more =>
      have hrest : splitAll sep (joinWith sep (q :: more)) = q :: more :=
        ih (by simp) (fun x hx => hfree x (List.mem_cons_of_mem p hx))
      calc splitAll sep (p ++ sep :: joinWith sep (q :: more))
          = p :: splitAll sep (joinWith sep (q :: more)) :=
            splitAll_append_sep (hfree p (List.mem_cons_self p _))
        _ = p :: q :: more := by rw [hrest]

theorem lossyF_fuel (f1 : Nat) : ∀ bs : List Nat, ∀ f2 : Nat,
    bs.length ≤ f1 → bs.length ≤ f2 →
    utf8DecodeLossyF f1 bs = utf8DecodeLossyF f2 bs := by
  induction f1 with
  | zero =>
    intro bs f2 h1 _
    have hb : bs = [] := List.eq_nil_of_length_eq_zero (Nat.le_zero.mp h1)
    subst hb
    cases f2 <;> simp [utf8DecodeLossyF]
  | succ f1 ih =>
    intro bs f2 h1 h2
    cases bs with
    | nil => cases f2 <;> simp [utf8DecodeLossyF]
    | cons b0 bs1 =>
      cases f2 with
      | zero => simp at h2
      | succ f2a =>
        simp only [List.length_cons, Nat.add_le_add_iff_right] at h1 h2
        simp only [utf8DecodeLossyF]
        split
        · rw [ih bs1 f2a h1 h2]
        · split
          · rw [ih bs1 f2a h1 h2]
          · split
            · split
              · refine if_congr Iff.rfl ?_ ?_
                · rw [ih _ f2a (by simp only [List.length_cons] at h1; omega)
                    (by simp only [List.length_cons] at h2; omega)]
                · rw [ih _ f2a h1 h2]
              · rfl
            · split
              · split
                · refine if_congr Iff.rfl ?_ ?_
                  · rw [ih _ f2a (by simp only [List.length_cons] at h1; omega)
                      (by simp only [List.length_cons] at h2; omega)]
                  · rw [ih _ f2a h1 h2]
                · rfl
                · rfl
              · split
                · split
                  · refine if_congr Iff.rfl ?_ ?_
                    · rw [ih _ f2a (by simp only [List.length_cons] at h1; omega)
                        (by simp only [List.length_cons] at h2; omega)]
                    · rw [ih _ f2a h1 h2]
                  · rfl
                  · rfl
                  · rfl
                · rw [ih bs1 f2a h1 h2]

theorem lossy_encode_prefix (c : Char) (rest : List Nat) :
    utf8DecodeLossy (utf8Encode c ++ rest) = c :: utf8DecodeLossy rest := by
  have hv := char_toNat_valid c
  set n := c.toNat with hn
  have hofn : Char.ofNat n = c := Char.ofNat_toNat c
  by_cases h1 : n < 0x80
  · have he : utf8Encode c = [n] := by rw [utf8Encode, ← hn, if_pos h1]
    rw [he]
    simp only [utf8DecodeLossy, List.cons_append, List.nil_append, List.length_cons]
    simp only [utf8DecodeLossyF, if_pos h1, hofn]
  · by_cases h2 : n < 0x800
    · have he : utf8Encode c = [0xC0 + n / 64, 0x80 + n % 64] := by
        rw [utf8Encode, ← hn, if_neg h1, if_pos h2]
      rw [he]
      simp only [utf8DecodeLossy, List.cons_append, List.nil_append, List.length_cons]
      simp only [utf8DecodeLossyF]
      rw [if_neg (by omega), if_neg (by omega), if_pos (by omega),
        if_pos (by simp only [isCont, decide_eq_true_eq]; omega)]
      have harith : (0xC0 + n / 64 - 0xC0) * 64 + (0x80 + n % 64 - 0x80) = n := by
        omega
      rw [harith, hofn]
      exact congrArg (fun t => c :: t)
        (lossyF_fuel (rest.length + 1) rest rest.length (by omega) (Nat.le_refl _))
    · by_cases h3 : n < 0x10000
      · have hsurr : n < 0xD800 ∨ 0xE000 ≤ n := by omega
        have he : utf8Encode c =
            [0xE0 + n / 4096, 0x80 + (n / 64) % 64, 0x80 + n % 64] := by
          rw [utf8Encode, ← hn, if_neg h1, if_neg h2, if_pos h3]
        rw [he]
        simp only [utf8DecodeLossy, List.cons_append, List.nil_append,
          List.length_cons]
        simp only [utf8DecodeLossyF]
        rw [if_neg (by omega), if_neg (by omega), if_neg (by omega),
          if_pos (by omega)]
        rw [if_pos ?hcond]
        case hcond =>
          refine ⟨?_, by simp only [isCont, decide_eq_true_eq]; omega⟩
          split
          · rename_i he0
            have : n / 4096 = 0 := by omega
            omega
          · split
            · rename_i hne0 hed
              have : n / 4096 = 13 := by omega
              rcases hsurr with hs | hs <;> omega
            · simp only [isCont, decide_eq_true_eq]
              omega
        have harith : (0xE0 + n / 4096 - 0xE0) * 4096 +
            (0x80 + (n / 64) % 64 - 0x80) * 64 + (0x80 + n % 64 - 0x80) = n := by
          omega
        rw [harith, hofn]
        exact congrArg (fun t => c :: t)
          (lossyF_fuel (rest.length + 2) rest rest.length (by omega) (Nat.le_refl _))
      · have h4 : n < 0x110000 := by omega
        have he : utf8Encode c = [0xF0 + n / 262144, 0x80 + (n / 4096) % 64,
            0x80 + (n / 64) % 64, 0x80 + n % 64] := by
          rw [utf8Encode, ← hn, if_neg h1, if_neg h2, if_neg h3]
        rw [he]
        simp only [utf8DecodeLossy, List.cons_append, List.nil_append,
          List.length_cons]
        simp only [utf8DecodeLossyF]
        rw [if_neg (by omega), if_neg (by omega), if_neg (by omega),
          if_neg (by omega), if_pos (by omega)]
        rw [if_pos ?hcond4]
        case hcond4 =>
          refine ⟨?_, by simp only [isCont, decide_eq_true_eq]; omega,
            by simp only [isCont, decide_eq_true_eq]; omega⟩
          split
          · rename_i hf0
            have : n / 262144 = 0 := by omega
            omega
          · split
            · rename_i hnf0 hf4
              have : n / 262144 = 4 := by omega
              omega
            · simp only [isCont, decide_eq_true_eq]
              omega
        have harith : (0xF0 + n / 262144 - 0xF0) * 262144 +
            (0x80 + (n / 4096) % 64 - 0x80) * 4096 +
            (0x80 + (n / 64) % 64 - 0x80) * 64 + (0x80 + n % 64 - 0x80) = n := by
          omega
        rw [harith, hofn]
        exact congrArg (fun t => c :: t)
          (lossyF_fuel (rest.length + 3) rest rest.length (by omega) (Nat.le_refl _))

theorem lossy_strBytes_append (l : Str) (r : List Nat) :
    utf8DecodeLossy (strBytes l ++ r) = l ++ utf8DecodeLossy r := by
  induction l with
  | nil => simp [strBytes]
  | cons c l ih =>
    have hb : strBytes (c :: l) = utf8Encode c ++ strBytes l := by
      simp [strBytes]
    rw [hb, List.append_assoc, lossy_encode_prefix, ih]
    rfl

theorem lossy_strBytes (l : Str) : utf8DecodeLossy (strBytes l) = l := by
  have h := lossy_strBytes_append l []
  rw [List.append_nil] at h
  rw [h, show utf8DecodeLossy [] = ([] : Str) from rfl, List.append_nil]

theorem percentDecode_not37 {b : Nat} (t : List Nat) (h : ¬b = 37) :
    percentDecode (b :: t) = b :: percentDecode t := by
  match t with
  | [] => simp [percentDecode, h]
  | [x] => simp [percentDecode, h]
  | x :: y :: t2 => simp [percentDecode, h]

theorem hexDigit_spec (m : Nat) (h : m < 16) :
    (hexDigit m).toNat = (if m < 10 then 48 + m else 55 + m) ∧
    isHexByte (hexDigit m).toNat = true ∧ hexVal (hexDigit m).toNat = m := by
  unfold hexDigit
  split
  · have ht : (Char.ofNat (48 + m)).toNat = 48 + m := toNat_ofNat_low _ (by omega)
    refine ⟨ht, ?_, ?_⟩
    · rw [ht]
      simp only [isHexByte, decide_eq_true_eq]
      omega
    · rw [ht]
      simp only [hexVal]
      split
      · omega
      · split <;> omega
  · rename_i h10
    have ht : (Char.ofNat (55 + m)).toNat = 55 + m := toNat_ofNat_low _ (by omega)
    refine ⟨ht, ?_, ?_⟩
    · rw [ht]
      simp only [isHexByte, decide_eq_true_eq]
      omega
    · rw [ht]
      simp only [hexVal]
      split
      · omega
      · split <;> omega

theorem utf8Encode_ascii (c : Char) (h : c.toNat < 0x80) :
    utf8Encode c = [c.toNat] := by
  rw [utf8Encode, if_pos h]

theorem strBytes_append (a b : Str) : strBytes (a ++ b) = strBytes a ++ strBytes b := by
  simp [strBytes]

theorem strBytes_cons (c : Char) (l : Str) :
    strBytes (c :: l) = utf8Encode c ++ strBytes l := by
  simp [strBytes]

theorem utf8Encode_lt256 (c : Char) : ∀ b ∈ utf8Encode c, b < 256 := by
  have hv := char_toNat_valid c
  intro b hb
  rw [utf8Encode] at hb
  split at hb
  · simp only [List.mem_singleton] at hb
    omega
  · split at hb
    · simp only [List.mem_cons, List.not_mem_nil, or_false] at hb
      rcases hb with rfl | rfl <;> omega
    · split at hb
      · simp only [List.mem_cons, List.not_mem_nil, or_false] at hb
        rcases hb with rfl | rfl | rfl <;> omega
      · simp only [List.mem_cons, List.not_mem_nil, or_false] at hb
        rcases hb with rfl | rfl | rfl | rfl <;> omega

theorem percentDecode_pct_chunks (bs : List Nat) (hb : ∀ b ∈ bs, b < 256) :
    ∀ r, percentDecode ((strBytes (bs.flatMap pctByte)).map plusFix ++ r) =
      bs ++ percentDecode r := by
  induction bs with
  | nil =>
    intro r
    simp [strBytes]
  | cons b bs ih =>
    intro r
    have hblt : b < 256 := hb b (List.mem_cons_self b bs)
    have hd1 := hexDigit_spec (b / 16) (by omega)
    have hd2 := hexDigit_spec (b % 16) (by omega)
    have hlt1 : (hexDigit (b / 16)).toNat < 0x80 := by
      rcases hd1 with ⟨he, _, _⟩
      split at he <;> omega
    have hlt2 : (hexDigit (b % 16)).toNat < 0x80 := by
      rcases hd2 with ⟨he, _, _⟩
      split at he <;> omega
    have hbytes : strBytes (pctByte b) =
        [37, (hexDigit (b / 16)).toNat, (hexDigit (b % 16)).toNat] := by
      have h37 : utf8Encode '%' = [37] := by decide
      simp [strBytes, pctByte, h37, utf8Encode_ascii _ hlt1, utf8Encode_ascii _ hlt2]
    have hchunk : strBytes ((b :: bs).flatMap pctByte) =
        strBytes (pctByte b) ++ strBytes (bs.flatMap pctByte) := by
      simp [strBytes]
    rw [hchunk, hbytes]
    have hfix1 : plusFix 37 = 37 := by decide
    have hfix2 : plusFix (hexDigit (b / 16)).toNat = (hexDigit (b / 16)).toNat := by
      simp only [plusFix]
      rw [if_neg (by rcases hd1 with ⟨he, _, _⟩; split at he <;> omega)]
    have hfix3 : plusFix (hexDigit (b % 16)).toNat = (hexDigit (b % 16)).toNat := by
      simp only [plusFix]
      rw [if_neg (by rcases hd2 with ⟨he, _, _⟩; split at he <;> omega)]
    simp only [List.map_append, List.map_cons, List.map_nil, hfix1, hfix2, hfix3,
      List.cons_append, List.nil_append]
    have hcan : pdTwoHex ((hexDigit (b / 16)).toNat ::
        (hexDigit (b % 16)).toNat ::
        (List.map plusFix (strBytes (bs.flatMap pctByte)) ++ r)) = true := by
      simp [pdTwoHex, hd1.2.1, hd2.2.1]
    simp only [percentDecode, hcan, and_true]
    rw [hd1.2.2, hd2.2.2]
    have hval : b / 16 * 16 + b % 16 = b := by omega
    rw [hval]
    rw [ih (fun x hx => hb x (List.mem_cons_of_mem b hx)) r]
    rw [if_pos trivial]

theorem formSafeChar_facts {c : Char} (h : formSafeChar c = true) :
    c.toNat < 128 ∧ ¬c.toNat = 43 ∧ ¬c.toNat = 37 := by
  simp only [formSafeChar, isAlphaNum, decide_eq_true_eq] at h
  rcases h with (h | h | h) | h | h | h | h
  · omega
  · omega
  · omega
  all_goals (subst h; refine ⟨by decide, by decide, by decide⟩)

theorem formEncode_bytes (x : Str) :
    ∀ r, percentDecode ((strBytes (formEncodeStr x)).map plusFix ++ r) =
      strBytes x ++ percentDecode r := by
  induction x with
  | nil =>
    intro r
    simp [formEncodeStr, strBytes]
  | cons c x ih =>
    intro r
    have hsplit : formEncodeStr (c :: x) =
        (if c = ' ' then ['+']
         else if formSafeChar c then [c]
         else (utf8Encode c).flatMap pctByte) ++ formEncodeStr x := by
      simp [formEncodeStr]
    rw [hsplit, strBytes_append, List.map_append, List.append_assoc]
    by_cases hsp : c = ' '
    · subst hsp
      rw [if_pos rfl]
      have hplus : strBytes ['+'] = [43] := by decide
      rw [hplus]
      have hm : ([43].map plusFix) = [32] := by decide
      rw [hm, List.cons_append, List.nil_append,
        percentDecode_not37 _ (by omega), ih r, strBytes_cons]
      have hsp2 : utf8Encode ' ' = [32] := by decide
      rw [hsp2]
      rfl
    · rw [if_neg hsp]
      by_cases hsf : formSafeChar c = true
      · rw [if_pos hsf]
        obtain ⟨hlt, h43, h37⟩ := formSafeChar_facts hsf
        have hstr : strBytes [c] = [c.toNat] := by
          simp [strBytes, utf8Encode_ascii c hlt]
        rw [hstr]
        have hfix : plusFix c.toNat = c.toNat := by
          simp only [plusFix]
          rw [if_neg h43]
        simp only [List.map_cons, List.map_nil, hfix, List.cons_append,
          List.nil_append]
        rw [percentDecode_not37 _ h37, ih r, strBytes_cons,
          utf8Encode_ascii c hlt]
        rfl
      · rw [if_neg hsf]
        rw [percentDecode_pct_chunks (utf8Encode c) (utf8Encode_lt256 c)
          ((strBytes (formEncodeStr x)).map plusFix ++ r)]
        rw [ih r, strBytes_cons, List.append_assoc]

theorem formDecode_formEncode (x : Str) :
    formDecodeStr (formEncodeStr x) = x := by
  unfold formDecodeStr
  have h := formEncode_bytes x []
  rw [List.append_nil] at h
  have hpd : percentDecode [] = [] := rfl
  rw [h, hpd, List.append_nil, lossy_strBytes]

theorem formEncode_chars {x : Str} {s : Char} (hm : s ∈ formEncodeStr x) :
    s.toNat = 43 ∨ formSafeChar s = true ∨ s.toNat = 37 ∨
    (48 ≤ s.toNat ∧ s.toNat ≤ 57) ∨ (65 ≤ s.toNat ∧ s.toNat ≤ 70) := by
  induction x with
  | nil => simp [formEncodeStr] at hm
  | cons c x ih =>
    have hsplit : formEncodeStr (c :: x) =
        (if c = ' ' then ['+']
         else if formSafeChar c then [c]
         else (utf8Encode c).flatMap pctByte) ++ formEncodeStr x := by
      simp [formEncodeStr]
    rw [hsplit, List.mem_append] at hm
    rcases hm with hm | hm
    · split at hm
      · simp only [List.mem_singleton] at hm
        subst hm
        left
        decide
      · split at hm
        · rename_i hsf
          simp only [List.mem_singleton] at hm
          subst hm
          right
          left
          exact hsf
        · simp only [List.mem_flatMap] at hm
          obtain ⟨b, hb, hmem⟩ := hm
          have hblt : b < 256 := utf8Encode_lt256 c b hb
          simp only [pctByte, List.mem_cons, List.not_mem_nil, or_false] at hmem
          rcases hmem with rfl | rfl | rfl
          · right; right; left; decide
          · have h1 := hexDigit_spec (b / 16) (by omega)
            rcases h1 with ⟨he, _, _⟩
            split at he <;> omega
          · have h2 := hexDigit_spec (b % 16) (by omega)
            rcases h2 with ⟨he, _, _⟩
            split at he <;> omega
    · exact ih hm

theorem formEncode_no_special {x : Str} {s : Char}
    (hs : s.toNat = 61 ∨ s.toNat = 38 ∨ s.toNat = 35 ∨ s.toNat = 63) :
    s ∉ formEncodeStr x := by
  intro hm
  have h := formEncode_chars hm
  have hsafe : formSafeChar s = true → False := by
    intro hsf
    have := formSafeChar_facts hsf
    simp only [formSafeChar, isAlphaNum, decide_eq_true_eq] at hsf
    rcases hsf with (h1 | h1 | h1) | h1 | h1 | h1 | h1
    · omega
    · omega
    · omega
    all_goals (rw [h1] at hs; revert hs; decide)
  rcases h with h | h | h | h | h
  · omega
  · exact hsafe h
  · omega
  · omega
  · omega

theorem joinWith_mem {sep : Char} {pieces : List Str} {c : Char}
    (hm : c ∈ joinWith sep pieces) : c = sep ∨ ∃ p ∈ pieces, c ∈ p := by
  induction pieces with
  | nil => simp [joinWith] at hm
  | cons p rest ih =>
    cases rest with
    | nil =>
      simp only [joinWith] at hm
      exact Or.inr ⟨p, List.mem_cons_self p [], hm⟩
    | cons q more =>
      simp only [joinWith, List.mem_append, List.mem_cons] at hm
      rcases hm with hm | hm | hm
      · exact Or.inr ⟨p, List.mem_cons_self p _, hm⟩
      · exact Or.inl hm
      · rcases ih hm with h | ⟨r, hr, hcr⟩
        · exact Or.inl h
        · exact Or.inr ⟨r, List.mem_cons_of_mem p hr, hcr⟩

theorem formSerialize_no_hash {ps : List (Str × Str)} {c : Char}
    (hs : c.toNat = 35 ∨ c.toNat = 63) : c ∉ formSerialize ps := by
  intro hm
  rcases joinWith_mem hm with h | ⟨p, hp, hcp⟩
  · have : c.toNat = 38 := by rw [h]; decide
    omega
  · simp only [List.mem_map] at hp
    obtain ⟨kv, _, rfl⟩ := hp
    rw [List.mem_append, List.mem_cons] at hcp
    rcases hcp with hcp | hcp | hcp
    · exact formEncode_no_special (by omega) hcp
    · have : c.toNat = 61 := by rw [hcp]; decide
      omega
    · exact formEncode_no_special (by omega) hcp

theorem formPair_roundtrip (k v : Str) :
    formPair (formEncodeStr k ++ '=' :: formEncodeStr v) = (k, v) := by
  unfold formPair
  rw [splitFirst_append (formEncode_no_special (by decide))]
  simp only
  rw [formDecode_formEncode, formDecode_formEncode]

theorem formParse_formSerialize (ps : List (Str × Str)) :
    formParse (formSerialize ps) = ps := by
  cases ps with
  | nil => rfl
  | cons kv rest =>
    unfold formParse formSerialize
    have hpieces : ∀ p ∈ (kv :: rest).map
        (fun kv => formEncodeStr kv.1 ++ '=' :: formEncodeStr kv.2), '&' ∉ p := by
      intro p hp
      simp only [List.mem_map] at hp
      obtain ⟨x, _, rfl⟩ := hp
      intro hm
      rw [List.mem_append, List.mem_cons] at hm
      rcases hm with hm | hm | hm
      · exact formEncode_no_special (by decide) hm
      · revert hm
        decide
      · exact formEncode_no_special (by decide) hm
    rw [splitAll_joinWith (by simp) hpieces]
    have hfil : ((kv :: rest).map
        (fun kv => formEncodeStr kv.1 ++ '=' :: formEncodeStr kv.2)).filter
        (fun p => ¬p = []) = (kv :: rest).map
        (fun kv => formEncodeStr kv.1 ++ '=' :: formEncodeStr kv.2) := by
      rw [List.filter_eq_self]
      intro p hp
      simp only [List.mem_map] at hp
      obtain ⟨x, _, rfl⟩ := hp
      simp
    rw [hfil, List.map_map]
    have : ((fun p => formPair p) ∘
        fun kv => formEncodeStr kv.1 ++ '=' :: formEncodeStr kv.2) =
        fun kv : Str × Str => (kv.1, kv.2) := by
      funext x
      exact formPair_roundtrip x.1 x.2
    rw [this]
    simp

theorem schemeChar_toNat {c : Char} (h : schemeChar c = true) :
    (65 ≤ c.toNat ∧ c.toNat ≤ 90) ∨ (97 ≤ c.toNat ∧ c.toNat ≤ 122) ∨
    (48 ≤ c.toNat ∧ c.toNat ≤ 57) ∨ c.toNat = 43 ∨ c.toNat = 45 ∨
    c.toNat = 46 := by
  simp only [schemeChar, isAlpha, decide_eq_true_eq] at h
  rcases h with (h | h) | h | h | h | h
  · exact Or.inl h
  · exact Or.inr (Or.inl h)
  · exact Or.inr (Or.inr (Or.inl h))
  · subst h; right; right; right; left; decide
  · subst h; right; right; right; right; left; decide
  · subst h; right; right; right; right; right; decide

theorem schemeChar_ne {c : Char} (h : schemeChar c = true) {x : Char}
    (hx : x.toNat = 58 ∨ x.toNat = 35 ∨ x.toNat = 63 ∨ x.toNat = 47) :
    ¬c = x := by
  intro he
  subst he
  have := schemeChar_toNat h
  omega

theorem isAlpha_lowerChar {c : Char} (h : isAlpha c = true) :
    isAlpha (lowerChar c) = true := by
  simp only [isAlpha, decide_eq_true_eq] at h ⊢
  unfold lowerChar
  split
  · rename_i hr
    rw [toNat_ofNat_low _ (by omega)]
    omega
  · exact h

theorem schemeChar_lowerChar {c : Char} (h : schemeChar c = true) :
    schemeChar (lowerChar c) = true := by
  have hn := schemeChar_toNat h
  simp only [schemeChar, isAlpha, decide_eq_true_eq]
  unfold lowerChar
  split
  · rename_i hr
    rw [toNat_ofNat_low _ (by omega)]
    omega
  · rename_i hr
    rcases hn with h | h | h | h | h | h
    · omega
    · left; right; exact h
    · right; left; exact h
    · right; right; left
      exact char_eq_of_toNat_eq (by rw [h]; decide)
    · right; right; right; left
      exact char_eq_of_toNat_eq (by rw [h]; decide)
    · right; right; right; right
      exact char_eq_of_toNat_eq (by rw [h]; decide)

theorem not_mem_lowerStr {l : Str} {x : Char}
    (hx : x.toNat < 65 ∨ (90 < x.toNat ∧ x.toNat < 97) ∨ 122 < x.toNat)
    (h : x ∉ l) : x ∉ lowerStr l := by
  intro hm
  simp only [lowerStr, List.mem_map] at hm
  obtain ⟨c, hc, hcx⟩ := hm
  exact h ((lowerChar_symbol hx hcx) ▸ hc)

theorem lowerStr_nil_iff (l : Str) : lowerStr l = [] ↔ l = [] := by
  simp [lowerStr]

theorem parseCore_spec {core : Str} {shp : Str × Str × Str}
    (h : parseCore core = some shp) :
    ∃ sch hostPath,
      splitFirst ':' core = (sch, some ('/' :: '/' :: hostPath)) ∧
      (match sch with
       | [] => False
       | c0 :: _ => isAlpha c0 = true) ∧
      sch.all schemeChar = true ∧
      ¬(splitFirst '/' hostPath).1 = [] ∧
      shp = (lowerStr sch, lowerStr (splitFirst '/' hostPath).1,
        match (splitFirst '/' hostPath).2 with
        | some p => '/' :: p
        | none => ['/']) := by
  unfold parseCore at h
  rcases hsp : splitFirst ':' core with ⟨sch, orest⟩
  rw [hsp] at h
  cases orest with
  | none => simp at h
  | some rest =>
    cases sch with
    | nil => simp at h
    | cons c0 cs =>
      simp only at h
      split at h
      · rename_i hcond
        cases rest with
        | nil => simp at h
        | cons r0 rest1 =>
          cases rest1 with
          | nil => simp at h
          | cons r1 hostPath =>
            simp only at h
            split at h
            · rename_i hslash
              obtain ⟨hs0, hs1⟩ := hslash
              subst hs0
              subst hs1
              split at h
              · simp at h
              · rename_i hhost
                simp only [Option.some.injEq] at h
                exact ⟨c0 :: cs, hostPath, rfl, by simpa using hcond.1,
                  hcond.2, hhost, h.symm⟩
            · simp at h
      · simp at h

theorem parseUrl_wf {s : Str} {u : Url} (h : parseUrl s = some u) : urlWF u := by
  unfold parseUrl at h
  dsimp only at h
  cases hpc : parseCore (splitFirst '?' (splitFirst '#' s).1).1 with
  | none => rw [hpc] at h; simp at h
  | some shp =>
    rw [hpc] at h
    simp only [Option.some.injEq] at h
    obtain ⟨sch, hostPath, hsp, hhead, hall, hhost, hshp⟩ := parseCore_spec hpc
    subst hshp
    subst h
    have hnoq : '?' ∉ (splitFirst '?' (splitFirst '#' s).1).1 :=
      splitFirst_sep_not_fst
    have hnoh : '#' ∉ (splitFirst '#' s).1 := splitFirst_sep_not_fst
    have hmemHostPath : ∀ x ∈ hostPath, x ∈ (splitFirst '?' (splitFirst '#' s).1).1 := by
      intro x hx
      exact splitFirst_snd_mem (by rw [hsp]) (by simp [hx])
    have hmemHost : ∀ x ∈ (splitFirst '/' hostPath).1,
        x ∈ (splitFirst '?' (splitFirst '#' s).1).1 := by
      intro x hx
      exact hmemHostPath x (splitFirst_fst_mem hx)
    have hmemCoreF : ∀ x ∈ (splitFirst '?' (splitFirst '#' s).1).1,
        x ∈ (splitFirst '#' s).1 := by
      intro x hx
      exact splitFirst_fst_mem hx
    unfold urlWF
    dsimp only
    refine ⟨?_, ?_, lowerStr_idem sch, ?_, ?_, ?_, ?_, lowerStr_idem _,
      ?_, ?_, ?_, ?_⟩
    · cases sch with
      | nil => exact hhead
      | cons c0 cs =>
        simp only [lowerStr, List.map_cons]
        exact isAlpha_lowerChar hhead
    · rw [List.all_eq_true] at hall ⊢
      intro x hx
      simp only [lowerStr, List.mem_map] at hx
      obtain ⟨y, hy, rfl⟩ := hx
      exact schemeChar_lowerChar (hall y hy)
    · simp only [lowerStr_nil_iff]
      exact hhost
    · exact not_mem_lowerStr (by left; decide) splitFirst_sep_not_fst
    · exact not_mem_lowerStr (by left; decide) (fun hm => hnoq (hmemHost _ hm))
    · exact not_mem_lowerStr (by left; decide)
        (fun hm => hnoh (hmemCoreF _ (hmemHost _ hm)))
    · cases hsn : (splitFirst '/' hostPath).2 with
      | some p => exact ⟨p, by simp⟩
      | none => exact ⟨[], by simp⟩
    · cases hsn : (splitFirst '/' hostPath).2 with
      | some p =>
        simp only [hsn, List.mem_cons, not_or]
        refine ⟨by decide, ?_⟩
        intro hm
        exact hnoq (hmemHostPath _ (splitFirst_snd_mem hsn hm))
      | none =>
        simp only [hsn]
        decide
    · cases hsn : (splitFirst '/' hostPath).2 with
      | some p =>
        simp only [hsn, List.mem_cons, not_or]
        refine ⟨by decide, ?_⟩
        intro hm
        exact hnoh (hmemCoreF _ (hmemHostPath _ (splitFirst_snd_mem hsn hm)))
      | none =>
        simp only [hsn]
        decide
    · cases hq : (splitFirst '?' (splitFirst '#' s).1).2 with
      | some qq =>
        simp only
        intro hm
        exact hnoh (splitFirst_snd_mem hq hm)
      | none => simp

theorem scheme_no_special {sch : Str} (hall : sch.all schemeChar = true)
    {x : Char} (hx : x.toNat = 58 ∨ x.toNat = 35 ∨ x.toNat = 63 ∨ x.toNat = 47) :
    x ∉ sch := by
  intro hm
  rw [List.all_eq_true] at hall
  exact schemeChar_ne (hall x hm) hx rfl

theorem parse_serialize {u : Url} (h : urlWF u) (hf : u.fragment = none) :
    parseUrl (serializeUrl u) = some u := by
  obtain ⟨hhead, hall, hlowS, hhne, hslashH, hqH, hhH, hlowH, ⟨pr, hpr⟩,
    hqP, hhP, hq⟩ := h
  have hserial : serializeUrl u = u.scheme ++ ':' :: '/' :: '/' ::
      (u.host ++ (u.path ++ (match u.query with
        | some q => '?' :: q
        | none => []))) := by
    rw [serializeUrl, hf]
    simp [List.append_assoc]
  have hnoHashQ : match u.query with
      | some q => ('#' : Char) ∉ '?' :: q
      | none => ('#' : Char) ∉ ([] : Str) := by
    cases hquery : u.query with
    | some q =>
      simp only [List.mem_cons, not_or]
      rw [hquery] at hq
      exact ⟨by decide, hq⟩
    | none => simp
  have hnoHash : '#' ∉ serializeUrl u := by
    rw [hserial]
    simp only [List.mem_append, List.mem_cons, not_or]
    refine ⟨scheme_no_special hall (by right; left; rfl), by decide, by decide,
      by decide, hhH, hhP, ?_⟩
    cases hquery : u.query with
    | some q =>
      rw [hquery] at hnoHashQ
      simpa using hnoHashQ
    | none => simp
  unfold parseUrl
  dsimp only
  rw [splitFirst_not_mem hnoHash]
  have hcore : ∀ qt : Str, splitFirst ':'
      (u.scheme ++ ':' :: '/' :: '/' :: (u.host ++ (u.path ++ qt))) =
      (u.scheme, some ('/' :: '/' :: (u.host ++ (u.path ++ qt)))) := by
    intro qt
    exact splitFirst_append (scheme_no_special hall (by left; rfl))
  have hcore_eval : ∀ qt : Str, parseCore
      (u.scheme ++ ':' :: '/' :: '/' :: (u.host ++ (u.path ++ qt))) =
      (if (splitFirst '/' (u.host ++ (u.path ++ qt))).1 = [] then none
       else some (lowerStr u.scheme,
         lowerStr (splitFirst '/' (u.host ++ (u.path ++ qt))).1,
         match (splitFirst '/' (u.host ++ (u.path ++ qt))).2 with
         | some p => '/' :: p
         | none => ['/'])) := by
    intro qt
    unfold parseCore
    rw [hcore qt]
    cases hsch : u.scheme with
    | nil => rw [hsch] at hhead; exact absurd hhead (by simp)
    | cons c0 cs =>
      rw [hsch] at hhead hall
      simp only
      rw [if_pos ⟨by simpa using hhead, hall⟩]
      rw [if_pos (by simp)]
  have hsplitHostPath : ∀ qt : Str,
      splitFirst '/' (u.host ++ (u.path ++ qt)) = (u.host, some (pr ++ qt)) := by
    intro qt
    rw [hpr]
    have : u.host ++ ('/' :: pr ++ qt) = u.host ++ '/' :: (pr ++ qt) := by simp
    rw [this]
    exact splitFirst_append hslashH
  cases hquery : u.query with
  | none =>
    have hnoQm : '?' ∉ serializeUrl u := by
      rw [hserial, hquery]
      simp only [List.mem_append, List.mem_cons, List.append_nil, not_or]
      exact ⟨scheme_no_special hall (by right; right; left; rfl), by decide,
        by decide, by decide, hqH, hqP⟩
    rw [hserial, hquery]
    rw [hserial, hquery] at hnoQm
    rw [splitFirst_not_mem hnoQm]
    dsimp only
    rw [hcore_eval []]
    rw [hsplitHostPath []]
    dsimp only
    rw [if_neg hhne]
    rw [hlowS, hlowH]
    simp only [List.append_nil, Option.some.injEq]
    cases u with
    | mk sc ho pa qu fr =>
      simp only at hpr hf hquery ⊢
      rw [hpr, hf, hquery]
  | some q =>
    rw [hserial, hquery]
    have hassoc : u.scheme ++ ':' :: '/' :: '/' ::
        (u.host ++ (u.path ++ '?' :: q)) =
        (u.scheme ++ ':' :: '/' :: '/' :: (u.host ++ u.path)) ++ '?' :: q := by
      simp [List.append_assoc]
    rw [hassoc]
    have hnoQcore : '?' ∉ u.scheme ++ ':' :: '/' :: '/' :: (u.host ++ u.path) := by
      simp only [List.mem_append, List.mem_cons, not_or]
      exact ⟨scheme_no_special hall (by right; right; left; rfl), by decide,
        by decide, by decide, hqH, hqP⟩
    rw [splitFirst_append hnoQcore]
    dsimp only
    have hback : u.scheme ++ ':' :: '/' :: '/' :: (u.host ++ u.path) =
        u.scheme ++ ':' :: '/' :: '/' :: (u.host ++ (u.path ++ [])) := by
      simp
    rw [hback, hcore_eval []]
    rw [hsplitHostPath []]
    dsimp only
    rw [if_neg hhne]
    rw [hlowS, hlowH]
    simp only [List.append_nil, Option.some.injEq]
    cases u with
    | mk sc ho pa qu fr =>
      simp only at hpr hf hquery ⊢
      rw [hpr, hf, hquery]

theorem stripUrl_fragment (u : Url) : (stripUrl u).fragment = none := by
  unfold stripUrl
  cases u.query with
  | none => rfl
  | some q =>
    dsimp only
    split <;> rfl

theorem stripUrl_wf {u : Url} (h : urlWF u) : urlWF (stripUrl u) := by
  obtain ⟨hhead, hall, hlowS, hhne, hslashH, hqH, hhH, hlowH, hpr, hqP, hhP, hq⟩ := h
  unfold stripUrl
  cases hquery : u.query with
  | none =>
    exact ⟨hhead, hall, hlowS, hhne, hslashH, hqH, hhH, hlowH, hpr, hqP, hhP,
      by simp⟩
  | some q =>
    dsimp only
    split
    · exact ⟨hhead, hall, hlowS, hhne, hslashH, hqH, hhH, hlowH, hpr, hqP, hhP,
        by simp⟩
    · exact ⟨hhead, hall, hlowS, hhne, hslashH, hqH, hhH, hlowH, hpr, hqP, hhP,
        formSerialize_no_hash (Or.inl rfl)⟩

theorem stripUrl_idem (u : Url) : stripUrl (stripUrl u) = stripUrl u := by
  obtain ⟨sc, ho, pa, qu, fr⟩ := u
  cases qu with
  | none => rfl
  | some q =>
    show stripUrl (stripUrl ⟨sc, ho, pa, some q, fr⟩) = _
    have h1 : stripUrl ⟨sc, ho, pa, some q, fr⟩ =
        (if ((formParse q).filter fun kv => ¬isTrackingKey kv.1) = [] then
          ⟨sc, ho, pa, none, none⟩
        else ⟨sc, ho, pa,
          some (formSerialize ((formParse q).filter fun kv => ¬isTrackingKey kv.1)),
          none⟩ : Url) := by
      unfold stripUrl
      dsimp only
    rw [h1]
    split
    · rfl
    · rename_i hpairs
      have h2 : stripUrl (⟨sc, ho, pa,
          some (formSerialize ((formParse q).filter fun kv => ¬isTrackingKey kv.1)),
          none⟩ : Url) =
          (if ((formParse (formSerialize ((formParse q).filter
              fun kv => ¬isTrackingKey kv.1))).filter
              fun kv => ¬isTrackingKey kv.1) = [] then
            ⟨sc, ho, pa, none, none⟩
          else ⟨sc, ho, pa,
            some (formSerialize ((formParse (formSerialize ((formParse q).filter
              fun kv => ¬isTrackingKey kv.1))).filter
              fun kv => ¬isTrackingKey kv.1)), none⟩ : Url) := by
        unfold stripUrl
        dsimp only
      rw [h2]
      have hff : ((formParse (formSerialize ((formParse q).filter
          fun kv => ¬isTrackingKey kv.1))).filter
          fun kv => ¬isTrackingKey kv.1) =
          ((formParse q).filter fun kv => ¬isTrackingKey kv.1) := by
        rw [formParse_formSerialize, List.filter_filter]
        apply List.filter_congr
        intro x _
        simp
      rw [hff, if_neg hpairs]

/-- Claim C5: the URL canonicalizer of the source, `canonicalize_url_str`,
is idempotent on every string. -/
theorem canonicalize_url_str_idem (s : Str) :
    canonicalize_url_str (canonicalize_url_str s) = canonicalize_url_str s := by
  cases hp : parseUrl s with
  | none =>
    have h1 : canonicalize_url_str s = s := by
      unfold canonicalize_url_str
      rw [hp]
    rw [h1, h1]
  | some u =>
    have hwf := parseUrl_wf hp
    have h1 : canonicalize_url_str s = serializeUrl (stripUrl u) := by
      unfold canonicalize_url_str
      rw [hp]
    rw [h1]
    have h2 : parseUrl (serializeUrl (stripUrl u)) = some (stripUrl u) :=
      parse_serialize (stripUrl_wf hwf) (stripUrl_fragment u)
    unfold canonicalize_url_str
    rw [h2]
    dsimp only
    rw [stripUrl_idem]

/-- Claim C6: on the same domain, `is_listing_page` classifies the root
path as a listing, any path containing `/news` as a listing regardless of
segment count, and `/2024/05/01/story-title` as not a listing; across
domains it always returns false. -/
theorem is_listing_page_boundaries :
    (∀ u base : Url, u.host = base.host → u.path = str "/" →
      is_listing_page u base = true) ∧
    (∀ u base : Url, u.host = base.host → hasSub (str "/news") u.path = true →
      is_listing_page u base = true) ∧
    (∀ u base : Url, u.host = base.host →
      u.path = str "/2024/05/01/story-title" → is_listing_page u base = false) ∧
    (∀ u base : Url, ¬u.host = base.host → is_listing_page u base = false) := by
  refine ⟨?_, ?_, ?_, ?_⟩
  · intro u base hh hp
    unfold is_listing_page
    rw [if_neg (not_not_intro hh), hp]
    decide
  · intro u base hh hp
    unfold is_listing_page
    rw [if_neg (not_not_intro hh)]
    unfold listingPath
    by_cases hroot : u.path = str "/" ∨ u.path = []
    · rw [if_pos hroot]
    · rw [if_neg hroot]
      have hlow : hasSub (str "/news") (lowerStr u.path) = true := by
        have h1 := hasSub_map (f := lowerChar) hp
        have h2 : (str "/news").map lowerChar = str "/news" := by decide
        rw [h2] at h1
        exact h1
      rw [if_pos (Or.inl hlow)]
  · intro u base hh hp
    unfold is_listing_page
    rw [if_neg (not_not_intro hh), hp]
    decide
  · intro u base hh
    unfold is_listing_page
    rw [if_pos hh]

/-- Witness for claim C6 at concrete URLs. -/
theorem is_listing_page_boundaries_witness :
    is_listing_page ⟨str "https", str "example.com", str "/", none, none⟩
      exBase = true ∧
    is_listing_page ⟨str "https", str "example.com", str "/news/world/x/y",
      none, none⟩ exBase = true ∧
    is_listing_page ⟨str "https", str "example.com",
      str "/2024/05/01/story-title", none, none⟩ exBase = false ∧
    is_listing_page ⟨str "https", str "other.com", str "/", none, none⟩
      exBase = false :=
  ⟨is_listing_page_boundaries.1 _ _ (by decide) (by decide),
   is_listing_page_boundaries.2.1 _ _ (by decide) (by decide),
   is_listing_page_boundaries.2.2.1 _ _ (by decide) (by decide),
   is_listing_page_boundaries.2.2.2 _ _ (by decide)⟩

/-- Counterexample to claim C7 as stated: `c7url` has the junk keyword
`jobs` in its query, yet `is_blacklisted_url` returns false — the source
checks the query only for newsletter/subscribe/signup. -/
theorem is_blacklisted_url_query_counterexample :
    c7url.query = some (str "ref=jobs") ∧
    hasSub (str "jobs") (str "ref=jobs") = true ∧
    (str "jobs") ∈ blacklistPathKeywords ∧
    is_blacklisted_url c7url = false := by
  refine ⟨rfl, by decide, by decide, by decide⟩

/-- Claim C7 amended: `is_blacklisted_url` returns true exactly when the
lowercased query contains one of newsletter/subscribe/signup or the
lowercased path contains one of the twenty path keywords of the source; in
particular any URL whose path contains `/newsletter` is blacklisted. -/
theorem is_blacklisted_url_amended :
    (∀ u : Url, hasSub (str "/newsletter") u.path = true →
      is_blacklisted_url u = true) ∧
    (∀ u : Url, is_blacklisted_url u = true ↔
      ((∃ q, u.query = some q ∧
        ∃ k ∈ blacklistQueryKeywords, hasSub k (lowerStr q) = true) ∨
       (∃ k ∈ blacklistPathKeywords, hasSub k (lowerStr u.path) = true))) := by
  have hiff : ∀ u : Url, is_blacklisted_url u = true ↔
      ((∃ q, u.query = some q ∧
        ∃ k ∈ blacklistQueryKeywords, hasSub k (lowerStr q) = true) ∨
       (∃ k ∈ blacklistPathKeywords, hasSub k (lowerStr u.path) = true)) := by
    intro u
    unfold is_blacklisted_url
    dsimp only
    cases hq : u.query with
    | none =>
      simp only [Bool.false_eq_true, if_false, List.any_eq_true]
      constructor
      · intro h
        exact Or.inr h
      · rintro (⟨q, hq2, _⟩ | h)
        · exact Option.noConfusion hq2
        · exact h
    | some q =>
      by_cases hqh : (blacklistQueryKeywords.any fun b => hasSub b (lowerStr q)) = true
      · rw [if_pos hqh]
        simp only [true_iff]
        rw [List.any_eq_true] at hqh
        exact Or.inl ⟨q, rfl, hqh⟩
      · rw [if_neg hqh]
        rw [List.any_eq_true]
        constructor
        · intro h
          exact Or.inr h
        · rintro (⟨q2, hq2, hk⟩ | h)
          · rw [Option.some.injEq] at hq2
            subst hq2
            rw [List.any_eq_true] at hqh
            exact absurd hk hqh
          · exact h
  refine ⟨?_, hiff⟩
  intro u hp
  rw [hiff u]
  right
  refine ⟨str "newsletter", by decide, ?_⟩
  have h1 : hasSub (str "newsletter") u.path = true :=
    hasSub_trans (a := str "newsletter") (by decide) hp
  have h2 := hasSub_map (f := lowerChar) h1
  have h3 : (str "newsletter").map lowerChar = str "newsletter" := by decide
  rw [h3] at h2
  exact h2

/-- Witness for the amended claim C7 at concrete URLs. -/
theorem is_blacklisted_url_amended_witness :
    is_blacklisted_url ⟨str "https", str "example.com",
      str "/newsletter/today", none, none⟩ = true ∧
    is_blacklisted_url c7url = false :=
  ⟨is_blacklisted_url_amended.1 _ (by decide), by decide⟩

/-- Counterexample to claim C8 as stated: resolving `c8href` yields a URL
that carries a query parameter named `url` whose value `https://a.com/` is
itself a URL, yet the resolver returns the value `hello` of the earlier
`u` parameter instead of that inner URL. -/
theorem normalize_maybe_url_counterexample :
    parseUrl c8href = some ⟨str "https", str "example.com", str "/p",
      some (str "u=hello&url=https%3A%2F%2Fa.com%2F"), none⟩ ∧
    (str "url", str "https://a.com/") ∈
      formParse (str "u=hello&url=https%3A%2F%2Fa.com%2F") ∧
    (parseUrl (str "https://a.com/")).isSome = true ∧
    normalize_maybe_url exBase c8href = some (str "hello") ∧
    ¬normalize_maybe_url exBase c8href = some (str "https://a.com/") := by
  refine ⟨by decide, by decide, by decide, by decide, by decide⟩

/-- Claim C8 amended: resolution tries an absolute parse first and joins
against the base otherwise; on success it returns the value of the first
query parameter named `url` or `u` — whether or not that value is itself a
URL — and the serialized resolved URL when no such parameter exists. -/
theorem normalize_maybe_url_amended :
    (∀ base : Url, ∀ s : Str, ∀ u1 : Url, parseUrl (trimStr s) = some u1 →
      normalize_maybe_url base s =
        some ((extract_inner_query_url u1).getD (serializeUrl u1))) ∧
    (∀ base : Url, ∀ s : Str, ∀ u1 : Url, ¬trimStr s = [] →
      parseUrl (trimStr s) = none → joinUrl base (trimStr s) = some u1 →
      normalize_maybe_url base s =
        some ((extract_inner_query_url u1).getD (serializeUrl u1))) := by
  constructor
  · intro base s u1 hp
    unfold normalize_maybe_url
    dsimp only
    have hne : ¬trimStr s = [] := by
      intro h0
      rw [h0] at hp
      exact Option.noConfusion ((show parseUrl [] = none by decide).symm.trans hp)
    rw [if_neg hne, hp]
    cases he : extract_inner_query_url u1 with
    | some inner => simp [he]
    | none => simp [he]
  · intro base s u1 hne hp hj
    unfold normalize_maybe_url
    dsimp only
    rw [if_neg hne, hp, hj]
    cases he : extract_inner_query_url u1 with
    | some inner => simp [he]
    | none => simp [he]

/-- Witness for the amended claim C8: an absolute link without wrapper
parameters resolves to its own serialization. -/
theorem normalize_maybe_url_amended_witness :
    normalize_maybe_url exBase (str "https://example.com/articles/a") =
      some ((extract_inner_query_url ⟨str "https", str "example.com",
        str "/articles/a", none, none⟩).getD
        (serializeUrl ⟨str "https", str "example.com", str "/articles/a",
          none, none⟩)) :=
  normalize_maybe_url_amended.1 exBase _ _ (by decide)

/-! Lemmas for claim C4: `collapse_and_normalize` is idempotent. -/

theorem nfkcChar_fix {c x : Char} (h : x ∈ nfkcChar c) : nfkcChar x = [x] := by
  unfold nfkcChar at h
  by_cases h1 : c.toNat = 0xA0
  · rw [if_pos h1] at h; rw [List.mem_singleton] at h; subst h; decide
  rw [if_neg h1] at h
  by_cases h2 : c.toNat = 0xFB01
  · rw [if_pos h2] at h
    rcases List.mem_cons.mp h with h | h
    · subst h; decide
    · rw [List.mem_singleton] at h; subst h; decide
  rw [if_neg h2] at h
  by_cases h3 : c.toNat = 0xFB02
  · rw [if_pos h3] at h
    rcases List.mem_cons.mp h with h | h
    · subst h; decide
    · rw [List.mem_singleton] at h; subst h; decide
  rw [if_neg h3] at h
  by_cases h4 : c.toNat = 0x2126
  · rw [if_pos h4] at h; rw [List.mem_singleton] at h; subst h; decide
  rw [if_neg h4] at h
  by_cases h5 : c.toNat = 0xFF21
  · rw [if_pos h5] at h; rw [List.mem_singleton] at h; subst h; decide
  rw [if_neg h5] at h
  rw [List.mem_singleton] at h
  subst h
  unfold nfkcChar
  rw [if_neg h1, if_neg h2, if_neg h3, if_neg h4, if_neg h5]

theorem mem_replaceNbsp {l : Str} {x : Char} (h : x ∈ replaceNbsp l) :
    x = ' ' ∨ x ∈ l := by
  unfold replaceNbsp at h
  rcases List.mem_map.mp h with ⟨c, hc, he⟩
  by_cases hA : c.toNat = 0xA0
  · left; rw [if_pos hA] at he; exact he.symm
  · right; rw [if_neg hA] at he; exact he ▸ hc

theorem mem_collapseWsAux {b : Bool} {l : Str} {x : Char}
    (h : x ∈ collapseWsAux b l) : x = ' ' ∨ x ∈ l := by
  induction l generalizing b with
  | nil => simp [collapseWsAux] at h
  | cons c rest ih =>
    unfold collapseWsAux at h
    by_cases hw : isWsChar c
    · rw [if_pos hw] at h
      cases b with
      | true =>
        rcases ih h with h | h
        exacts [Or.inl h, Or.inr (List.mem_cons_of_mem c h)]
      | false =>
        rw [if_neg Bool.false_ne_true] at h
        rcases List.mem_cons.mp h with h | h
        · exact Or.inl h
        · rcases ih h with h | h
          exacts [Or.inl h, Or.inr (List.mem_cons_of_mem c h)]
    · rw [if_neg hw] at h
      rcases List.mem_cons.mp h with h | h
      · exact Or.inr (h ▸ List.mem_cons_self c rest)
      · rcases ih h with h | h
        exacts [Or.inl h, Or.inr (List.mem_cons_of_mem c h)]

theorem mem_trimStr {l : Str} {x : Char} (h : x ∈ trimStr l) : x ∈ l := by
  unfold trimStr at h
  rw [List.mem_reverse] at h
  have h1 := (List.dropWhile_sublist isWsChar).subset h
  rw [List.mem_reverse] at h1
  exact (List.dropWhile_sublist isWsChar).subset h1

theorem mem_nfkcStr {l : Str} {x : Char} (h : x ∈ nfkcStr l) :
    ∃ c ∈ l, x ∈ nfkcChar c := by
  unfold nfkcStr at h
  exact List.mem_flatMap.mp h

theorem nfkcStr_fixed {l : Str} (h : ∀ x ∈ l, nfkcChar x = [x]) :
    nfkcStr l = l := by
  induction l with
  | nil => rfl
  | cons c rest ih =>
    unfold nfkcStr at *
    simp only [List.flatMap_cons]
    rw [h c (List.mem_cons_self c rest),
      ih (fun x hx => h x (List.mem_cons_of_mem c hx))]
    rfl

theorem replaceNbsp_fixed {l : Str} (h : ∀ x ∈ l, ¬x.toNat = 0xA0) :
    replaceNbsp l = l := by
  induction l with
  | nil => rfl
  | cons c rest ih =>
    unfold replaceNbsp at *
    simp only [List.map_cons]
    rw [if_neg (h c (List.mem_cons_self c rest)),
      ih (fun x hx => h x (List.mem_cons_of_mem c hx))]

theorem collapseWsAux_wsIsSpace (l : Str) : ∀ b, wsIsSpace (collapseWsAux b l) := by
  induction l with
  | nil => intro b x hx; simp [collapseWsAux] at hx
  | cons c rest ih =>
    intro b x hx hw
    unfold collapseWsAux at hx
    by_cases hc : isWsChar c
    · rw [if_pos hc] at hx
      cases b with
      | true => exact ih true x hx hw
      | false =>
        rw [if_neg Bool.false_ne_true] at hx
        rcases List.mem_cons.mp hx with h | h
        · exact h
        · exact ih true x h hw
    · rw [if_neg hc] at hx
      rcases List.mem_cons.mp hx with h | h
      · exact absurd (h ▸ hw) hc
      · exact ih false x h hw

theorem collapseWsAux_true_head (l : Str) :
    ∀ x ∈ (collapseWsAux true l).head?, isWsChar x = false := by
  induction l with
  | nil => simp [collapseWsAux]
  | cons c rest ih =>
    unfold collapseWsAux
    by_cases hc : isWsChar c
    · rw [if_pos hc, if_pos rfl]; exact ih
    · rw [if_neg hc]
      intro x hx
      simp only [List.head?_cons, Option.mem_def, Option.some.injEq] at hx
      exact hx ▸ ((Bool.not_eq_true _) ▸ hc)

theorem collapseWsAux_noTwoWs (l : Str) : ∀ b, noTwoWs (collapseWsAux b l) := by
  induction l with
  | nil => intro b; unfold noTwoWs; simp [collapseWsAux]
  | cons c rest ih =>
    intro b
    unfold collapseWsAux
    by_cases hc : isWsChar c
    · rw [if_pos hc]
      cases b with
      | true => exact ih true
      | false =>
        rw [if_neg Bool.false_ne_true]
        unfold noTwoWs
        rw [List.chain'_cons']
        refine ⟨?_, ih true⟩
        intro y hy hcon
        have hh := collapseWsAux_true_head rest y hy
        rw [hcon.2] at hh
        exact Bool.noConfusion hh
    · rw [if_neg hc]
      unfold noTwoWs
      rw [List.chain'_cons']
      refine ⟨?_, ih false⟩
      intro y hy hcon
      exact hc hcon.1

theorem collapseWsAux_fixed (l : Str) (hs : wsIsSpace l) (hn : noTwoWs l) :
    collapseWsAux false l = l ∧
      ((∀ x ∈ l.head?, isWsChar x = false) → collapseWsAux true l = l) := by
  induction l with
  | nil => exact ⟨rfl, fun _ => rfl⟩
  | cons c rest ih =>
    have hs' : wsIsSpace rest := fun x hx => hs x (List.mem_cons_of_mem c hx)
    have hn' : noTwoWs rest := (List.chain'_cons'.mp hn).2
    rcases ih hs' hn' with ⟨ihf, iht⟩
    by_cases hc : isWsChar c
    · have hcsp : c = ' ' := hs c (List.mem_cons_self c rest) hc
      have hhead : ∀ x ∈ rest.head?, isWsChar x = false := by
        intro y hy
        have hr := (List.chain'_cons'.mp hn).1 y hy
        cases hw : isWsChar y with
        | false => rfl
        | true => exact absurd ⟨hc, hw⟩ hr
      constructor
      · unfold collapseWsAux
        rw [if_pos hc, if_neg Bool.false_ne_true, iht hhead, hcsp]
      · intro hx
        have hcf := hx c rfl
        rw [hc] at hcf
        exact Bool.noConfusion hcf
    · refine ⟨?_, fun _ => ?_⟩ <;>
      · unfold collapseWsAux
        rw [if_neg hc, ihf]

theorem collapseWs_fixed {l : Str} (hs : wsIsSpace l) (hn : noTwoWs l) :
    collapseWs l = l := (collapseWsAux_fixed l hs hn).1

theorem collapseWs_wsIsSpace (l : Str) : wsIsSpace (collapseWs l) :=
  collapseWsAux_wsIsSpace l false

theorem collapseWs_noTwoWs (l : Str) : noTwoWs (collapseWs l) :=
  collapseWsAux_noTwoWs l false

theorem wsIsSpace_trimStr {l : Str} (h : wsIsSpace l) : wsIsSpace (trimStr l) :=
  fun x hx => h x (mem_trimStr hx)

theorem noTwoWs_dropWhile {l : Str} (h : noTwoWs l) :
    noTwoWs (l.dropWhile isWsChar) := by
  induction l with
  | nil => exact h
  | cons c rest ih =>
    rw [List.dropWhile_cons]
    by_cases hc : isWsChar c
    · rw [if_pos hc]; exact ih (List.chain'_cons'.mp h).2
    · rw [if_neg hc]; exact h

theorem noTwoWs_reverse {l : Str} (h : noTwoWs l) : noTwoWs l.reverse := by
  unfold noTwoWs at *
  rw [List.chain'_reverse]
  exact List.Chain'.imp (fun a b hab hc => hab ⟨hc.2, hc.1⟩) h

theorem noTwoWs_trimStr {l : Str} (h : noTwoWs l) : noTwoWs (trimStr l) := by
  unfold trimStr
  exact noTwoWs_reverse (noTwoWs_dropWhile (noTwoWs_reverse (noTwoWs_dropWhile h)))

theorem dropWhile_head_not (l : Str) :
    ∀ x ∈ (l.dropWhile isWsChar).head?, isWsChar x = false := by
  induction l with
  | nil => simp [List.dropWhile]
  | cons c rest ih =>
    rw [List.dropWhile_cons]
    by_cases hc : isWsChar c
    · rw [if_pos hc]; exact ih
    · rw [if_neg hc]
      intro x hx
      simp only [List.head?_cons, Option.mem_def, Option.some.injEq] at hx
      exact hx ▸ ((Bool.not_eq_true _) ▸ hc)

theorem dropWhile_of_head_not {l : Str}
    (h : ∀ x ∈ l.head?, isWsChar x = false) : l.dropWhile isWsChar = l := by
  cases l with
  | nil => rfl
  | cons c rest =>
    rw [List.dropWhile_cons, if_neg]
    intro hc
    have hf := h c rfl
    rw [hc] at hf
    exact Bool.noConfusion hf

theorem dropWhile_suffix (l : Str) :
    ∃ s, l = s ++ l.dropWhile isWsChar := by
  induction l with
  | nil => exact ⟨[], rfl⟩
  | cons c rest ih =>
    rw [List.dropWhile_cons]
    by_cases hc : isWsChar c
    · rw [if_pos hc]
      rcases ih with ⟨s, hs⟩
      exact ⟨c :: s, by rw [List.cons_append, ← hs]⟩
    · rw [if_neg hc]; exact ⟨[], rfl⟩

theorem trimStr_head_not (l : Str) :
    ∀ x ∈ (trimStr l).head?, isWsChar x = false := by
  intro x hx
  unfold trimStr at hx
  rcases dropWhile_suffix (l.dropWhile isWsChar).reverse with ⟨s, hs⟩
  have hz : l.dropWhile isWsChar
      = ((l.dropWhile isWsChar).reverse.dropWhile isWsChar).reverse ++ s.reverse := by
    conv_lhs => rw [← List.reverse_reverse (l.dropWhile isWsChar), hs]
    rw [List.reverse_append]
  apply dropWhile_head_not l x
  rw [hz]
  cases hrev : ((l.dropWhile isWsChar).reverse.dropWhile isWsChar).reverse with
  | nil => rw [hrev] at hx; exact absurd hx (by simp)
  | cons a t =>
    rw [hrev] at hx
    simp only [List.head?_cons, Option.mem_def, Option.some.injEq] at hx
    rw [List.cons_append]
    exact congrArg some hx

theorem trimStr_reverse_head_not (l : Str) :
    ∀ x ∈ (trimStr l).reverse.head?, isWsChar x = false := by
  unfold trimStr
  rw [List.reverse_reverse]
  exact dropWhile_head_not (l.dropWhile isWsChar).reverse

theorem trimStr_idem (l : Str) : trimStr (trimStr l) = trimStr l := by
  have h1 : (trimStr l).dropWhile isWsChar = trimStr l :=
    dropWhile_of_head_not (trimStr_head_not l)
  show (((trimStr l).dropWhile isWsChar).reverse.dropWhile isWsChar).reverse = trimStr l
  rw [h1, dropWhile_of_head_not (trimStr_reverse_head_not l), List.reverse_reverse]

theorem can_mem {s : Str} {x : Char} (h : x ∈ collapse_and_normalize s) :
    nfkcChar x = [x] := by
  unfold collapse_and_normalize at h
  have h1 := mem_trimStr h
  unfold collapseWs at h1
  rcases mem_collapseWsAux h1 with h2 | h2
  · rw [h2]; decide
  rcases mem_replaceNbsp h2 with h3 | h3
  · rw [h3]; decide
  rcases mem_nfkcStr h3 with ⟨c, _, hc⟩
  exact nfkcChar_fix hc

theorem can_no_nbsp {s : Str} {x : Char} (h : x ∈ collapse_and_normalize s) :
    ¬x.toNat = 0xA0 := by
  intro hA
  have hws : wsIsSpace (collapse_and_normalize s) := by
    unfold collapse_and_normalize
    exact wsIsSpace_trimStr (collapseWs_wsIsSpace _)
  have hwsx : isWsChar x = true := by simp [isWsChar, hA]
  have hsp := hws x h hwsx
  rw [hsp] at hA
  exact absurd hA (by decide)

theorem collapse_and_normalize_idem (s : Str) :
    collapse_and_normalize (collapse_and_normalize s) = collapse_and_normalize s := by
  have hn : nfkcStr (collapse_and_normalize s) = collapse_and_normalize s :=
    nfkcStr_fixed (fun x hx => can_mem hx)
  have hr : replaceNbsp (collapse_and_normalize s) = collapse_and_normalize s :=
    replaceNbsp_fixed (fun x hx => can_no_nbsp hx)
  have hws : wsIsSpace (collapse_and_normalize s) := by
    unfold collapse_and_normalize
    exact wsIsSpace_trimStr (collapseWs_wsIsSpace _)
  have hnt : noTwoWs (collapse_and_normalize s) := by
    unfold collapse_and_normalize
    exact noTwoWs_trimStr (collapseWs_noTwoWs _)
  have hc : collapseWs (collapse_and_normalize s) = collapse_and_normalize s :=
    collapseWs_fixed hws hnt
  have ht : trimStr (collapse_and_normalize s) = collapse_and_normalize s :=
    trimStr_idem (collapseWs (replaceNbsp (nfkcStr s)))
  show trimStr (collapseWs (replaceNbsp (nfkcStr (collapse_and_normalize s))))
      = collapse_and_normalize s
  rw [hn, hr, hc, ht]

/-- Claim C4 counterexample: `fix_mojibake` is not idempotent.  On a
five-fold latin-1 misencoding of `é` the three bounded repair passes stop
early, the result still carries a mojibake marker, and a second call to
`fix_mojibake` changes the string again. -/
theorem fix_mojibake_not_idem :
    ¬fix_mojibake (fix_mojibake c4bad) = fix_mojibake c4bad := by decide

/-- Claim C4 (amended): `fix_mojibake` never fails (total by construction)
and it is idempotent on every input without a mojibake marker whose
normalization is also marker-free; on such strings `fix_mojibake` is the
normalization `collapse_and_normalize`, which is idempotent.  The spec's
unconditional idempotence claim fails on marker-carrying strings, see the
counterexample. -/
theorem fix_mojibake_amended (s : Str)
    (h1 : hasMarker s = false)
    (h2 : hasMarker (collapse_and_normalize s) = false) :
    fix_mojibake (fix_mojibake s) = fix_mojibake s := by
  have hc1 : ¬hasMarker s = true := by rw [h1]; exact Bool.false_ne_true
  have e1 : fix_mojibake s = collapse_and_normalize s := by
    unfold fix_mojibake
    rw [if_pos hc1]
  rw [e1]
  have hc2 : ¬hasMarker (collapse_and_normalize s) = true := by
    rw [h2]; exact Bool.false_ne_true
  unfold fix_mojibake
  rw [if_pos hc2]
  exact collapse_and_normalize_idem s

/-- Witness for the amended claim C4 at a concrete marker-free string with
collapsible interior whitespace. -/
theorem fix_mojibake_amended_witness :
    hasMarker (str "hello  world") = false ∧
      hasMarker (collapse_and_normalize (str "hello  world")) = false ∧
      fix_mojibake (fix_mojibake (str "hello  world"))
        = fix_mojibake (str "hello  world") :=
  ⟨by decide, by decide,
    fix_mojibake_amended (str "hello  world") (by decide) (by decide)⟩

/-! Lemmas for claim C1: the truncation panic of `write_text_element`. -/

theorem decodeEntitiesF_no_amp :
    ∀ (fuel : Nat) (l : Str), '&' ∉ l → l.length ≤ fuel →
      decodeEntitiesF fuel l = l := by
  intro fuel
  induction fuel with
  | zero =>
    intro l h hl
    cases l with
    | nil => rfl
    | cons c r => simp at hl
  | succ f ih =>
    intro l h hl
    cases l with
    | nil => rfl
    | cons c r =>
      have hc : ¬c = '&' := fun he => h (he ▸ List.mem_cons_self c r)
      have hr : '&' ∉ r := fun hm => h (List.mem_cons_of_mem c hm)
      have hlr : r.length ≤ f := by
        simp only [List.length_cons] at hl
        omega
      rw [decodeEntitiesF.eq_def]
      split
      · omega
      · rename_i heq
        exact absurd heq (by simp)
      · rename_i heq
        exact absurd (List.head_eq_of_cons_eq heq) hc
      · rename_i fl cl rl hne heqf heql
        injection heql with h1 h2
        have hfl : fl = f := by omega
        rw [← h1, ← h2, hfl, ih r hr hlr]

theorem c1bad_no_amp : '&' ∉ c1bad := by
  intro h
  unfold c1bad at h
  rcases List.mem_append.mp h with h | h
  · exact absurd (List.eq_of_mem_replicate h) (by decide)
  · rw [List.mem_singleton] at h
    exact absurd h (by decide)

theorem sanitize_text_c1bad : sanitize_text c1bad = c1bad := by
  unfold sanitize_text decode_html_entities
  rw [decodeEntitiesF_no_amp c1bad.length c1bad c1bad_no_amp (Nat.le_refl _)]
  rw [List.filter_eq_self]
  intro a ha
  unfold c1bad at ha
  rcases List.mem_append.mp ha with h | h
  · rw [List.eq_of_mem_replicate h]; decide
  · rw [List.mem_singleton] at h
    rw [h]; decide

theorem strBytes_replicate_a (n : Nat) :
    strBytes (List.replicate n 'a') = List.replicate n 97 := by
  induction n with
  | zero => rfl
  | succ m ih =>
    rw [List.replicate_succ, List.replicate_succ, strBytes_cons, ih]
    rfl

theorem byteLen_c1bad : byteLen c1bad = 4097 := by
  unfold byteLen c1bad
  rw [strBytes_append, List.length_append, strBytes_replicate_a,
    List.length_replicate]
  rfl

theorem rustTruncate_mid (n : Nat) :
    rustTruncate (List.replicate n 'a' ++ [Char.ofNat 0xE9]) (n + 1) = none := by
  induction n with
  | zero => decide
  | succ m ih =>
    rw [List.replicate_succ, List.cons_append]
    show rustTruncate ('a' :: (List.replicate m 'a' ++ [Char.ofNat 0xE9])) (m + 1 + 1) = none
    unfold rustTruncate
    have h1 : (utf8Encode 'a').length = 1 := by decide
    rw [if_pos (by rw [h1]; omega : (utf8Encode 'a').length ≤ m + 1 + 1)]
    have harith : m + 1 + 1 - (utf8Encode 'a').length = m + 1 := by
      rw [h1]; omega
    rw [harith, ih]
    rfl

/-- Claim C1: `write_text_element` panics on well-formed input.  The
sanitized text `c1bad` (4095 ASCII characters followed by `é`) exceeds the
4096-byte cap, so the serializer calls `String::truncate(4096)`; 4096 is
not a character boundary of that string, and Rust's `String::truncate`
panics there instead of truncating to the cap.  The claim that
serialization never fails or panics on well-formed input is a code bug. -/
theorem write_text_element_panics :
    byteLen (sanitize_text c1bad) > MAX_TEXT_LEN ∧
      write_text_element c1bad = none := by
  have hb : byteLen (sanitize_text c1bad) > MAX_TEXT_LEN := by
    rw [sanitize_text_c1bad, byteLen_c1bad]
    decide
  refine ⟨hb, ?_⟩
  unfold write_text_element
  dsimp only
  rw [if_pos hb, sanitize_text_c1bad]
  have ht : rustTruncate c1bad MAX_TEXT_LEN = none := by
    show rustTruncate (List.replicate 4095 'a' ++ [Char.ofNat 0xE9]) (4095 + 1) = none
    exact rustTruncate_mid 4095
  rw [ht]
  rfl

/-! Lemmas for claim C3: the link filters in front of the serializer. -/

theorem filterItemsGo_keep {base : Url} {items : List Item} {seen : List Str}
    {it : Item} (h : it ∈ filterItemsGo base items seen) :
    filterItemKeep base it (canonicalize_url_str it.link) = true := by
  induction items generalizing seen with
  | nil => exact absurd h (by simp [filterItemsGo])
  | cons a rest ih =>
    unfold filterItemsGo at h
    dsimp only at h
    by_cases hk : filterItemKeep base a (canonicalize_url_str a.link) = true
    · rw [if_pos hk] at h
      by_cases hs : seen.contains (canonicalize_url_str a.link) = true
      · rw [if_pos hs] at h
        exact ih h
      · rw [if_neg hs] at h
        rcases List.mem_cons.mp h with h | h
        · rw [h]; exact hk
        · exact ih h
    · rw [if_neg hk] at h
      exact ih h

theorem filterItemKeep_url {base : Url} {it : Item} {canon : Str} {u : Url}
    (hk : filterItemKeep base it canon = true) (hp : parseUrl canon = some u) :
    is_blacklisted_url u = false ∧ is_listing_page u base = false := by
  unfold filterItemKeep at hk
  rw [hp] at hk
  dsimp only at hk
  by_cases hb : (is_blacklisted_url u || is_listing_page u base) = true
  · rw [if_pos hb] at hk
    rw [if_pos (by simp : ¬false = true)] at hk
    exact Bool.noConfusion hk
  · simp only [Bool.or_eq_true, not_or] at hb
    exact ⟨(Bool.not_eq_true _) ▸ hb.1, (Bool.not_eq_true _) ▸ hb.2⟩

theorem jsonldRunFilter_link {doc : Doc} {startUrl : Url} {items : List Item}
    {it : Item} (h : it ∈ jsonldRunFilter doc startUrl items) {u : Url}
    (hp : parseUrl it.link = some u) :
    is_blacklisted_url u = false ∧ is_listing_page u startUrl = false := by
  unfold jsonldRunFilter at h
  have h2 := (List.mem_filter.mp h).2
  by_cases he : is_error_page doc it.title it.description = true
  · rw [if_pos he] at h2
    exact Bool.noConfusion h2
  · rw [if_neg he, hp] at h2
    dsimp only at h2
    have h3 := of_decide_eq_true h2
    exact ⟨(Bool.not_eq_true _) ▸ h3.1, (Bool.not_eq_true _) ▸ h3.2⟩

/-- Claim C3 counterexample: an item whose raw link parses as a blacklisted
URL (its query carries `utm_source=newsletter`) survives `filter_items`,
because the filter inspects only the canonicalized link, from which
canonicalization has stripped the tracking parameter. -/
theorem filter_items_raw_blacklist_counterexample :
    filter_items exBase [c3item] = [c3item] ∧
      ∃ u, parseUrl c3item.link = some u ∧ is_blacklisted_url u = true := by
  refine ⟨by decide, ⟨⟨str "https", str "example.com", str "/articles/x",
    some (str "utm_source=newsletter"), none⟩, by decide, by decide⟩⟩

/-- Claim C3 amended: the heuristic path's `filter_items` guarantees the
blacklist and listing checks only for the canonicalized link of each kept
item; the structured-data path's run filter guarantees them for the raw
link.  The spec's claim that on both paths the item's own link is never
blacklisted fails on the heuristic path when canonicalization removes the
offending query, see the counterexample. -/
theorem serializer_link_filter_amended :
    (∀ (base : Url) (items : List Item) (it : Item),
      it ∈ filter_items base items →
      ∀ u : Url, parseUrl (canonicalize_url_str it.link) = some u →
        is_blacklisted_url u = false ∧ is_listing_page u base = false) ∧
    (∀ (doc : Doc) (startUrl : Url) (items : List Item) (it : Item),
      it ∈ jsonldRunFilter doc startUrl items →
      ∀ u : Url, parseUrl it.link = some u →
        is_blacklisted_url u = false ∧ is_listing_page u startUrl = false) := by
  constructor
  · intro base items it hmem u hp
    unfold filter_items at hmem
    exact filterItemKeep_url (filterItemsGo_keep hmem) hp
  · intro doc startUrl items it hmem u hp
    exact jsonldRunFilter_link hmem hp

/-- Witness for the amended claim C3 at a concrete kept item. -/
theorem serializer_link_filter_amended_witness :
    c3good ∈ filter_items exBase [c3good] ∧
      parseUrl (canonicalize_url_str c3good.link) = some c3goodUrl ∧
      is_blacklisted_url c3goodUrl = false ∧
      is_listing_page c3goodUrl exBase = false :=
  ⟨by decide, by decide,
    serializer_link_filter_amended.1 exBase [c3good] c3good (by decide)
      c3goodUrl (by decide)⟩

/-! Lemmas for claim C2: deduplication by canonical link. -/

theorem filterItemsGo_nodup (base : Url) (items : List Item) :
    ∀ seen : List Str,
      ((filterItemsGo base items seen).map
        (fun it => canonicalize_url_str it.link)).Nodup ∧
      (∀ it ∈ filterItemsGo base items seen,
        ¬seen.contains (canonicalize_url_str it.link) = true) := by
  induction items with
  | nil =>
    intro seen
    exact ⟨List.nodup_nil, by simp [filterItemsGo]⟩
  | cons a rest ih =>
    intro seen
    unfold filterItemsGo
    dsimp only
    by_cases hk : filterItemKeep base a (canonicalize_url_str a.link) = true
    · rw [if_pos hk]
      by_cases hs : seen.contains (canonicalize_url_str a.link) = true
      · rw [if_pos hs]; exact ih seen
      · rw [if_neg hs]
        rcases ih (canonicalize_url_str a.link :: seen) with ⟨hn, hd⟩
        constructor
        · simp only [List.map_cons, List.nodup_cons]
          refine ⟨?_, hn⟩
          intro hmem
          rcases List.mem_map.mp hmem with ⟨b, hb, he⟩
          exact hd b hb (by rw [List.contains_cons, he]; simp)
        · intro it hit
          rcases List.mem_cons.mp hit with h | h
          · rw [h]; exact hs
          · intro hcon
            exact hd it h (by rw [List.contains_cons, hcon]; simp)
    · rw [if_neg hk]
      exact ih seen

theorem filterItemsGo_sublist (base : Url) (items : List Item) :
    ∀ seen : List Str, (filterItemsGo base items seen).Sublist items := by
  induction items with
  | nil => intro seen; exact List.nil_sublist []
  | cons a rest ih =>
    intro seen
    unfold filterItemsGo
    dsimp only
    by_cases hk : filterItemKeep base a (canonicalize_url_str a.link) = true
    · rw [if_pos hk]
      by_cases hs : seen.contains (canonicalize_url_str a.link) = true
      · rw [if_pos hs]; exact .cons a (ih seen)
      · rw [if_neg hs]; exact .cons₂ a (ih _)
    · rw [if_neg hk]; exact .cons a (ih seen)

/-- Claim C2 counterexample: the structured-data path of `run` passes
duplicate items to the serializer.  On a document whose JSON-LD block
lists the same article node twice, the pipeline output is that item twice,
with equal canonical links; no deduplication runs on this path. -/
theorem run_pipeline_duplicate_links :
    run_pipeline (fun _ => none) c2doc exBase 20
        = RunOutcome.rss [c2item, c2item] ∧
      ¬([c2item, c2item].map
        (fun it => canonicalize_url_str it.link)).Nodup := by
  constructor
  · decide
  · decide

/-- Claim C2 amended: only the heuristic path deduplicates.  `filter_items`
returns a sublist of its input whose canonical links are pairwise distinct,
keeping the first kept occurrence of each canonical link (shown on a
concrete three-item list where the third item duplicates the first's
canonical link under a tracking parameter); the structured-data path of
`run` performs no deduplication, see the counterexample. -/
theorem filter_items_dedup_amended :
    (∀ (base : Url) (items : List Item),
      ((filter_items base items).map
        (fun it => canonicalize_url_str it.link)).Nodup) ∧
    (∀ (base : Url) (items : List Item),
      (filter_items base items).Sublist items) ∧
    filter_items exBase [c2item, c2itemB, c2dupItem] = [c2item, c2itemB] := by
  refine ⟨?_, ?_, by decide⟩
  · intro base items
    exact (filterItemsGo_nodup base items []).1
  · intro base items
    exact filterItemsGo_sublist base items []

/-! Lemmas for claim C9: the scan caps of the heuristic extractor. -/

theorem extractArticlesGo_len (doc : Doc) (base : Url) (maxPages : Nat) :
    ∀ (arts : List ArticleElem) (items : List Item),
      items.length ≤ maxPages →
      (extractArticlesGo doc base maxPages arts items).length ≤ maxPages := by
  intro arts
  induction arts with
  | nil => intro items h; exact h
  | cons art rest ih =>
    intro items h
    unfold extractArticlesGo
    by_cases hm : maxPages ≤ items.length
    · rw [if_pos hm]; exact h
    · rw [if_neg hm]
      dsimp only
      repeat' split
      all_goals
        first
          | exact ih items h
          | (apply ih
             simp only [List.length_append, List.length_cons, List.length_nil]
             omega)

theorem extractRelatedGo_len (doc : Doc) (base : Url) (maxPages : Nat) :
    ∀ (anchors : List Anchor) (items : List Item),
      items.length ≤ maxPages →
      (extractRelatedGo doc base maxPages anchors items).length ≤ maxPages := by
  intro anchors
  induction anchors with
  | nil => intro items h; exact h
  | cons a rest ih =>
    intro items h
    unfold extractRelatedGo
    by_cases hm : maxPages ≤ items.length
    · rw [if_pos hm]; exact h
    · rw [if_neg hm]
      dsimp only
      repeat' split
      all_goals
        first
          | exact ih items h
          | (apply ih
             simp only [List.length_append, List.length_cons, List.length_nil]
             omega)

theorem extract_item_from_doc_len (doc : Doc) (cand base : Url)
    (items : List Item) :
    (extract_item_from_doc doc cand base items).length ≤ items.length + 1 := by
  unfold extract_item_from_doc
  dsimp only
  repeat' split
  all_goals
    try simp only [List.length_append, List.length_cons, List.length_nil]
  all_goals omega

theorem listingPageGo_len (fetch : Str → Option Page) (cand base : Url)
    (maxPages : Nat) :
    ∀ (anchors : List Anchor) (items : List Item),
      items.length ≤ maxPages →
      (listingPageGo fetch cand base maxPages anchors items).length ≤ maxPages := by
  intro anchors
  induction anchors with
  | nil => intro items h; exact h
  | cons a rest ih =>
    intro items h
    unfold listingPageGo
    by_cases hm : maxPages ≤ items.length
    · rw [if_pos hm]; exact h
    · rw [if_neg hm]
      dsimp only
      repeat' split
      all_goals
        first
          | exact ih items h
          | (apply ih
             exact le_trans (extract_item_from_doc_len _ _ _ _) (by omega))

theorem fetch_candidates_len (fetch : Str → Option Page) (base : Url)
    (maxPages : Nat) :
    ∀ (candidates : List Url) (items : List Item),
      items.length ≤ maxPages →
      (fetch_candidates fetch candidates base maxPages items).length ≤ maxPages := by
  intro candidates
  induction candidates with
  | nil => intro items h; exact h
  | cons cand rest ih =>
    intro items h
    unfold fetch_candidates at *
    rw [List.foldl_cons]
    refine ih _ ?_
    dsimp only
    by_cases hm : maxPages ≤ items.length
    · rw [if_pos hm]; exact h
    · rw [if_neg hm]
      split
      · split
        · exact listingPageGo_len fetch cand base maxPages _ items h
        · exact h
      · split
        · exact le_trans (extract_item_from_doc_len _ _ _ _) (by omega)
        · exact h

theorem is_error_page_body {d1 d2 : Doc}
    (h : d1.bodyHasErrorPhrase = d2.bodyHasErrorPhrase) (title : Str)
    (description : Option Str) :
    is_error_page d1 title description = is_error_page d2 title description := by
  unfold is_error_page
  rw [h]

theorem extractArticlesGo_congr (d1 d2 : Doc)
    (h : d1.bodyHasErrorPhrase = d2.bodyHasErrorPhrase) (base : Url)
    (maxPages : Nat) :
    ∀ (arts : List ArticleElem) (items : List Item),
      extractArticlesGo d1 base maxPages arts items
        = extractArticlesGo d2 base maxPages arts items := by
  intro arts
  induction arts with
  | nil => intro items; rfl
  | cons art rest ih =>
    intro items
    unfold extractArticlesGo
    by_cases hm : maxPages ≤ items.length
    · rw [if_pos hm, if_pos hm]
    · rw [if_neg hm, if_neg hm]
      cases hh : art.headingText.map (fun s => fix_mojibake (trimStr s)) with
      | none => exact ih items
      | some title =>
        try dsimp only
        by_cases ht : trimStr title = []
        · rw [if_pos ht, if_pos ht]
          exact ih items
        · rw [if_neg ht, if_neg ht]
          try dsimp only
          rw [is_error_page_body h]
          split
          · exact ih items
          · split
            · split
              · exact ih _
              · exact ih items
            · exact ih _

theorem extractRelatedGo_congr (d1 d2 : Doc)
    (h : d1.bodyHasErrorPhrase = d2.bodyHasErrorPhrase) (base : Url)
    (maxPages : Nat) :
    ∀ (anchors : List Anchor) (items : List Item),
      extractRelatedGo d1 base maxPages anchors items
        = extractRelatedGo d2 base maxPages anchors items := by
  intro anchors
  induction anchors with
  | nil => intro items; rfl
  | cons a rest ih =>
    intro items
    unfold extractRelatedGo
    by_cases hm : maxPages ≤ items.length
    · rw [if_pos hm, if_pos hm]
    · rw [if_neg hm, if_neg hm]
      cases hhr : a.href with
      | none => exact ih items
      | some href =>
        try dsimp only
        cases hj : joinUrl base href with
        | none => exact ih items
        | some abs =>
          try dsimp only
          split
          · try dsimp only
            split
            · exact ih items
            · split
              · exact ih items
              · try dsimp only
                rw [is_error_page_body h]
                split
                · exact ih items
                · exact ih _
          · exact ih items

/-- Claim C9: the heuristic extractor returns at most `maxPages` items,
and it examines at most the first 50 `article` elements and the first 2000
anchors of the document — replacing the document's article list and anchor
list by those bounded views does not change its output. -/
theorem extract_from_html_caps (fetch : Str → Option Page) (doc : Doc)
    (base : Url) (maxPages : Nat) :
    (extract_from_html fetch doc base maxPages).length ≤ maxPages ∧
    extract_from_html fetch doc base maxPages
      = extract_from_html fetch
          { doc with articles := doc.articles.take 50,
                     anchors := doc.anchors.take 2000 } base maxPages := by
  have h1 : (extract_article_elements doc base maxPages []).length ≤ maxPages :=
    extractArticlesGo_len doc base maxPages _ [] (Nat.zero_le _)
  constructor
  · unfold extract_from_html
    dsimp only
    split
    · exact h1
    · have h2 : (if looks_like_single_article doc then
          extract_related_articles doc base maxPages
            (extract_article_elements doc base maxPages [])
          else extract_article_elements doc base maxPages []).length
            ≤ maxPages := by
        split
        · exact extractRelatedGo_len doc base maxPages _ _ h1
        · exact h1
      exact le_trans
        (List.Sublist.length_le (filterItemsGo_sublist base _ []))
        (fetch_candidates_len fetch base maxPages _ _ h2)
  · have e1 : extract_article_elements doc base maxPages []
        = extract_article_elements
            { doc with articles := doc.articles.take 50,
                       anchors := doc.anchors.take 2000 } base maxPages [] := by
      unfold extract_article_elements
      dsimp only
      rw [List.take_take, Nat.min_self]
      exact extractArticlesGo_congr doc
        { doc with articles := doc.articles.take 50,
                   anchors := doc.anchors.take 2000 } rfl base maxPages _ []
    have e2 : ∀ X, extract_related_articles doc base maxPages X
        = extract_related_articles
            { doc with articles := doc.articles.take 50,
                       anchors := doc.anchors.take 2000 } base maxPages X := by
      intro X
      unfold extract_related_articles
      dsimp only
      exact extractRelatedGo_congr doc
        { doc with articles := doc.articles.take 50,
                   anchors := doc.anchors.take 2000 } rfl base maxPages _ X
    have e3 : build_candidate_list doc base maxPages
        = build_candidate_list
            { doc with articles := doc.articles.take 50,
                       anchors := doc.anchors.take 2000 } base maxPages := by
      unfold build_candidate_list
      dsimp only
      rw [List.take_take, Nat.min_self]
    unfold extract_from_html
    dsimp only
    rw [e1, e2, e3]
    rfl

/-! Lemmas for claim C10: a failed feed fetch is swallowed. -/

theorem pipelineTail_ne_feed (fetch : Str → Option Page) (doc : Doc)
    (startUrl : Url) (maxPages : Nat) (raw : Str) :
    ¬pipelineTail fetch doc startUrl maxPages = RunOutcome.feed raw := by
  unfold pipelineTail
  dsimp only
  intro h
  split at h
  · split at h
    · exact RunOutcome.noConfusion h
    · split at h <;> exact RunOutcome.noConfusion h
  · split at h <;> exact RunOutcome.noConfusion h

/-- Claim C10: when the start document advertises a feed but fetching it
fails, `run` swallows the failure and continues with the rest of the
pipeline; conversely the run ends in the feed outcome only when a linked
feed was found and fetched successfully, the raw feed body echoed
verbatim. -/
theorem feed_fetch_failure_swallowed :
    (∀ (fetch : Str → Option Page) (doc : Doc) (startUrl : Url)
      (maxPages : Nat) (fu : Url),
      find_linked_feed doc startUrl = some fu →
      fetch (serializeUrl fu) = none →
      run_pipeline fetch doc startUrl maxPages
        = pipelineTail fetch doc startUrl maxPages) ∧
    (∀ (fetch : Str → Option Page) (doc : Doc) (startUrl : Url)
      (maxPages : Nat) (raw : Str),
      run_pipeline fetch doc startUrl maxPages = RunOutcome.feed raw →
      ∃ fu page, find_linked_feed doc startUrl = some fu ∧
        fetch (serializeUrl fu) = some page ∧ raw = page.raw) := by
  constructor
  · intro fetch doc startUrl maxPages fu h1 h2
    unfold run_pipeline
    rw [h1]
    dsimp only
    rw [h2]
  · intro fetch doc startUrl maxPages raw h
    unfold run_pipeline at h
    cases hf : find_linked_feed doc startUrl with
    | none =>
      rw [hf] at h
      exact absurd h (pipelineTail_ne_feed fetch doc startUrl maxPages raw)
    | some fu =>
      rw [hf] at h
      dsimp only at h
      cases hp : fetch (serializeUrl fu) with
      | none =>
        rw [hp] at h
        exact absurd h (pipelineTail_ne_feed fetch doc startUrl maxPages raw)
      | some page =>
        rw [hp] at h
        dsimp only at h
        exact ⟨fu, page, rfl, hp, (RunOutcome.feed.injEq _ _).mp h.symm⟩

/-- Witness for claim C10 at a concrete document and an oracle whose every
fetch fails. -/
theorem feed_fetch_failure_swallowed_witness :
    find_linked_feed c10doc exBase = some c10feedUrl ∧
      run_pipeline (fun _ => none) c10doc exBase 20
        = pipelineTail (fun _ => none) c10doc exBase 20 :=
  ⟨by decide,
    feed_fetch_failure_swallowed.1 (fun _ => none) c10doc exBase 20 c10feedUrl
      (by decide) rfl⟩
